import Mathlib

/-!
Verification of the MAPF arena core against its specification.

This file gives a shallow embedding, in Lean 4, of the parts of the
repository that the checked claims are about:

* `backend/src/validation.rs` — the plan validator;
* `solvers/mapf-core/src/map.rs` — the grid byte codec;
* `solvers/mapf-core/src/scenario.rs` — the scenario parser;
* `solvers/mapf-astar/src/astar.rs` — the joint-state A* reference solver;
* `backend/src/api/solver.rs` — the verify / submit request handlers.

Modelling conventions, used throughout:

* Rust `u32` / `u8` / `usize` values are modelled as `Nat`, `i32` / `i64`
  values as `Int`.  Where the source performs wrapping `u32` index
  arithmetic (`(y * width + x) as usize` on `u32` operands, or
  `width * height` on `u32` operands) the embedding keeps the wrap
  explicitly as `% 4294967296`.  Where the source casts a `u32` to `i32`
  (`map.width as i32`, `coord.x as i32`) the embedding uses `u32_as_i32`,
  which reproduces the two's-complement reinterpretation.  `i32`
  addition inside the solver's neighbour enumeration is wrapped with
  `wrap_i32`.  Remaining `i32`/`i64` arithmetic (coordinate differences,
  cost sums) is modelled exactly on `Int`; theorems that depend on
  exactness carry explicit side conditions (`width < 2^31`, …) stating
  the regime in which the machine arithmetic cannot wrap.
* Rust slice indexing `xs[i]`, which panics when out of range, is
  modelled with `Option`: a function that can panic returns `none` on
  the panicking inputs.  Guarded indexing (where the source checks the
  bound first) uses `getD`, which the guard makes exact.
* Human-readable `details` / message strings carried by errors are not
  modelled; only the structured fields (kind, agent, timestep) are.
* `HashMap` / `HashSet` are modelled as association lists / lists with
  membership tests; the source only uses them for lookup and insert, so
  iteration order never matters.
* The executor (`executor.rs`) runs untrusted WASM and is I/O; request
  handlers receive the executor's outcome as an explicit argument.
-/

set_option maxHeartbeats 1000000

namespace Mapf

/-- Two's-complement reinterpretation of a `u32` value as an `i32`
(the semantics of Rust's `as i32` on a `u32`). -/
def u32_as_i32 (n : Nat) : Int :=
  if n < 2147483648 then (n : Int) else (n : Int) - 4294967296

/-- Wrapping `i32` arithmetic result (release-mode Rust semantics for an
arithmetic operation that may overflow `i32`). -/
def wrap_i32 (v : Int) : Int :=
  ((v + 2147483648) % 4294967296) - 2147483648

theorem u32_as_i32_of_lt {n : Nat} (h : n < 2147483648) : u32_as_i32 n = n := by
  simp [u32_as_i32, h]

theorem wrap_i32_eq_self {v : Int} (h₁ : -2147483648 ≤ v) (h₂ : v < 2147483648) :
    wrap_i32 v = v := by
  unfold wrap_i32
  have : (v + 2147483648) % 4294967296 = v + 2147483648 :=
    Int.emod_eq_of_lt (by omega) (by omega)
  omega

namespace Validation

/-- `validation.rs` `Coordinate`: a pair of `i32`s. -/
structure Coordinate where
  x : Int
  y : Int
  deriving DecidableEq, Repr

/-- `validation.rs` `Path`. -/
structure Path where
  steps : List Coordinate
  deriving DecidableEq, Repr

/-- `validation.rs` `Solution`. -/
structure Solution where
  paths : List Path
  deriving DecidableEq, Repr

/-- `validation.rs` `GridMap`: `width`/`height` are `u32`, `tiles` a
byte vector (0 = blocked, anything else = passable). -/
structure GridMap where
  width : Nat
  height : Nat
  tiles : List Nat
  deriving DecidableEq, Repr

/-- `validation.rs` `ValidationErrorType`. -/
inductive ValidationErrorType where
  | DiagonalMove
  | OutOfBounds
  | BlockedCell
  | InvalidStart
  | InvalidGoal
  | VertexCollision
  | EdgeCollision
  | EmptyPath
  deriving DecidableEq, Repr

/-- `validation.rs` `ValidationError`.  The human-readable `details`
string of the source is not modelled. -/
structure ValidationError where
  error_type : ValidationErrorType
  agent_index : Nat
  timestep : Option Nat
  deriving DecidableEq, Repr

/-- `validation.rs` `ValidationResult`. -/
structure ValidationResult where
  valid : Bool
  errors : List ValidationError
  deriving DecidableEq, Repr

/-- `is_cardinal_move`: the move from `p` to `q` is one cell in a
cardinal direction or a wait.  `i32` subtraction is modelled exactly
(debug-mode Rust panics on the overflowing cases, which require a
coordinate of magnitude ≥ 2^31 − 1). -/
def is_cardinal_move (p q : Coordinate) : Bool :=
  let dx := (q.x - p.x).natAbs
  let dy := (q.y - p.y).natAbs
  (dx == 1 && dy == 0) || (dx == 0 && dy == 1) || (dx == 0 && dy == 0)

/-- The loop body of `validate_path_cardinal`: scan consecutive pairs,
`t` being the timestep of the first element of the current pair. -/
def cardinalScan (agent_index : Nat) (t : Nat) : List Coordinate → List ValidationError
  | a :: b :: rest =>
      (if is_cardinal_move a b then [] else
        [⟨ValidationErrorType.DiagonalMove, agent_index, some t⟩]) ++
      cardinalScan agent_index (t + 1) (b :: rest)
  | _ => []

/-- `validate_path_cardinal`. -/
def validate_path_cardinal (path : Path) (agent_index : Nat) : List ValidationError :=
  if path.steps.isEmpty then
    [⟨ValidationErrorType.EmptyPath, agent_index, none⟩]
  else
    cardinalScan agent_index 0 path.steps

/-- The loop body of `validate_path_on_map`: `t` is the timestep of the
head of the remaining step list.  The index computation
`(pos.y as u32 * map.width + pos.x as u32) as usize` is `u32`
arithmetic, hence the `% 4294967296`; the `as u32` casts on the
coordinates are exact because the bounds check has established
`0 ≤ x` and `0 ≤ y`. -/
def onMapScan (map : GridMap) (agent_index : Nat) (t : Nat) :
    List Coordinate → List ValidationError
  | [] => []
  | pos :: rest =>
      (if pos.x < 0 || pos.x ≥ u32_as_i32 map.width ||
          pos.y < 0 || pos.y ≥ u32_as_i32 map.height then
        [⟨ValidationErrorType.OutOfBounds, agent_index, some t⟩]
      else
        let idx := (pos.y.toNat * map.width + pos.x.toNat) % 4294967296
        match map.tiles.get? idx with
        | some 0 => [⟨ValidationErrorType.BlockedCell, agent_index, some t⟩]
        | _ => []) ++
      onMapScan map agent_index (t + 1) rest

/-- `validate_path_on_map`. -/
def validate_path_on_map (path : Path) (agent_index : Nat) (map : GridMap) :
    List ValidationError :=
  onMapScan map agent_index 0 path.steps

/-- Position of an agent at timestep `t` with parking semantics, exactly
as computed by the collision checkers: the step at `t` if the path is
still running, the last step if the path has ended, `none` for an empty
path (the source `continue`s in that case). -/
def posAt (path : Path) (t : Nat) : Option Coordinate :=
  if t < path.steps.length then path.steps.get? t
  else path.steps.getLast?

/-- `Tmax` as computed by both collision checkers:
`paths.iter().map(|p| p.steps.len()).max().unwrap_or(0)`. -/
def maxLen (paths : List Path) : Nat :=
  (paths.map (fun p => p.steps.length)).foldr max 0

/-- Inner loop of `validate_no_vertex_collisions` for one timestep `t`:
iterate over the agents in index order carrying the `occupied` map
(position ↦ first agent seen there), modelled as an association list. -/
def vertexScan (t : Nat) (agent : Nat) (occupied : List ((Int × Int) × Nat)) :
    List Path → List ValidationError
  | [] => []
  | path :: rest =>
      match posAt path t with
      | none => vertexScan t (agent + 1) occupied rest
      | some pos =>
          let key : Int × Int := (pos.x, pos.y)
          match occupied.lookup key with
          | some _ =>
              ⟨ValidationErrorType.VertexCollision, agent, some t⟩ ::
                vertexScan t (agent + 1) occupied rest
          | none => vertexScan t (agent + 1) ((key, agent) :: occupied) rest

/-- `validate_no_vertex_collisions`. -/
def validate_no_vertex_collisions (paths : List Path) : List ValidationError :=
  (List.range (maxLen paths)).flatMap fun t => vertexScan t 0 [] paths

/-- Pair check of `validate_no_edge_collisions` for the fixed agent `i`
(path `pi`) against each later agent, `j` being the index of the head of
the remaining list. -/
def edgePairScan (t : Nat) (i : Nat) (pi : Path) (j : Nat) :
    List Path → List ValidationError
  | [] => []
  | pj :: rest =>
      (match posAt pi t, posAt pi (t + 1), posAt pj t, posAt pj (t + 1) with
      | some pit, some pit1, some pjt, some pjt1 =>
          if pit.x == pjt1.x && pit.y == pjt1.y &&
             pjt.x == pit1.x && pjt.y == pit1.y then
            [⟨ValidationErrorType.EdgeCollision, i, some t⟩]
          else []
      | _, _, _, _ => []) ++
      edgePairScan t i pi (j + 1) rest

/-- Outer agent loop of `validate_no_edge_collisions` for one timestep. -/
def edgeScan (t : Nat) (i : Nat) : List Path → List ValidationError
  | [] => []
  | pi :: rest => edgePairScan t i pi (i + 1) rest ++ edgeScan t (i + 1) rest

/-- `validate_no_edge_collisions` (`max_t.saturating_sub(1)` is `Nat`
subtraction). -/
def validate_no_edge_collisions (paths : List Path) : List ValidationError :=
  (List.range (maxLen paths - 1)).flatMap fun t => edgeScan t 0 paths

/-- Loop body of `validate_starts_and_goals`; `i` is the index of the
head of the remaining path list.  The source indexes `starts[i]` and
`goals[i]` unconditionally, which panics when out of range: the
panicking executions are modelled by `none`. -/
def sgScan (starts goals : List Coordinate) (i : Nat) :
    List Path → Option (List ValidationError)
  | [] => some []
  | path :: rest =>
      if path.steps.isEmpty then sgScan starts goals (i + 1) rest
      else
        match path.steps.head?, path.steps.getLast?,
            starts.get? i, goals.get? i with
        | some ps, some pe, some es, some eg =>
            (sgScan starts goals (i + 1) rest).map fun tailErrs =>
              (if ps.x != es.x || ps.y != es.y then
                [⟨ValidationErrorType.InvalidStart, i, some 0⟩]
              else []) ++
              (if pe.x != eg.x || pe.y != eg.y then
                [⟨ValidationErrorType.InvalidGoal, i, some (path.steps.length - 1)⟩]
              else []) ++
              tailErrs
        | _, _, _, _ => none

/-- `validate_starts_and_goals`. -/
def validate_starts_and_goals (paths : List Path) (starts goals : List Coordinate) :
    Option (List ValidationError) :=
  sgScan starts goals 0 paths

/-- Per-path stage of `validate_solution` (its first `for` loop): for
each path, cardinal errors then map errors. -/
def perPathScan (map : GridMap) (i : Nat) : List Path → List ValidationError
  | [] => []
  | path :: rest =>
      validate_path_cardinal path i ++ validate_path_on_map path i map ++
        perPathScan map (i + 1) rest

/-- `validate_solution`.  Returns `none` exactly when the source
panics (an out-of-range `starts[i]` / `goals[i]` access). -/
def validate_solution (solution : Solution) (map : GridMap)
    (starts goals : List Coordinate) : Option ValidationResult :=
  let perPath := perPathScan map 0 solution.paths
  match validate_starts_and_goals solution.paths starts goals with
  | none => none
  | some sg =>
      let collisions :=
        if solution.paths.length > 1 then
          validate_no_vertex_collisions solution.paths ++
            validate_no_edge_collisions solution.paths
        else []
      let errors := perPath ++ sg ++ collisions
      some ⟨errors.isEmpty, errors⟩

end Validation

namespace MapCore

/-- `map.rs` `Tile`. -/
inductive Tile where
  | Passable
  | Blocked
  deriving DecidableEq, Repr

/-- `map.rs` `GridMap` (the MovingAI-format grid, distinct from the
validator's byte grid). -/
structure GridMap where
  width : Nat
  height : Nat
  tiles : List Tile
  deriving DecidableEq, Repr

/-- `GridMap::to_bytes`: `Passable ↦ 1`, `Blocked ↦ 0`. -/
def GridMap.to_bytes (m : GridMap) : List Nat :=
  m.tiles.map fun t => match t with
    | Tile.Passable => 1
    | Tile.Blocked => 0

/-- `GridMap::from_bytes`.  The length check compares against
`(width * height) as usize` where the multiplication is performed on
`u32`s, hence the explicit wrap (release-mode semantics; debug-mode
Rust would panic on the overflowing multiplication). -/
def GridMap.from_bytes (width height : Nat) (data : List Nat) : Option GridMap :=
  if data.length ≠ width * height % 4294967296 then none
  else some ⟨width, height,
    data.map fun b => if b ≠ 0 then Tile.Passable else Tile.Blocked⟩

/-- `scenario.rs` `ScenarioError`.  The payload strings (`reason`, the
offending value) are not modelled; `MalformedEntry` keeps its 1-based
line number. -/
inductive ScenarioError where
  | MissingVersion
  | InvalidVersion
  | MalformedEntry (line : Nat)
  deriving DecidableEq, Repr

/-- `scenario.rs` `ScenarioEntry`.  `optimal_length` is an `f64` in the
source; its numeric value is irrelevant to every claim (only whether
the field parses matters), so the entry keeps the source string. -/
structure ScenarioEntry where
  bucket : Nat
  map_name : String
  map_width : Nat
  map_height : Nat
  start_x : Nat
  start_y : Nat
  goal_x : Nat
  goal_y : Nat
  optimal_length : String
  deriving DecidableEq, Repr

/-- `scenario.rs` `Scenario`. -/
structure Scenario where
  version : Nat
  entries : List ScenarioEntry
  deriving DecidableEq, Repr

/-- Rust `str::trim` on a character list: strip Unicode whitespace from
both ends (structurally recursive so that concrete scenario texts
evaluate inside the kernel). -/
def trimChars (cs : List Char) : List Char :=
  ((cs.dropWhile Char.isWhitespace).reverse.dropWhile Char.isWhitespace).reverse

/-- Rust `str::split(sep)` on a character list: the fields between
occurrences of `sep`, keeping empty fields (so a trailing separator
yields a trailing empty field, as in Rust). -/
def splitOnChar (sep : Char) : List Char → List (List Char)
  | [] => [[]]
  | c :: rest =>
      let r := splitOnChar sep rest
      if c = sep then [] :: r
      else
        match r with
        | f :: t => (c :: f) :: t
        | [] => [[c]]

/-- Rust `str::parse::<u32>`: an optional leading `+`, then one or more
ASCII digits, value below `2^32`. -/
def rust_parse_u32 (cs0 : List Char) : Option Nat :=
  let cs := match cs0 with
    | '+' :: rest => rest
    | cs => cs
  if cs.isEmpty || !cs.all Char.isDigit then none
  else
    let v := cs.foldl (fun acc c => acc * 10 + (c.toNat - 48)) 0
    if v < 4294967296 then some v else none

/-- One or more ASCII digits. -/
def isCount (cs : List Char) : Bool :=
  !cs.isEmpty && cs.all Char.isDigit

/-- Strip one optional leading sign. -/
def stripSign (cs : List Char) : List Char :=
  match cs with
  | c :: rest => if c = '+' ∨ c = '-' then rest else cs
  | [] => []

/-- Split a character list at the first `e`/`E`, if any. -/
def splitExp : List Char → List Char × Option (List Char)
  | [] => ([], none)
  | c :: rest =>
      if c = 'e' ∨ c = 'E' then ([], some rest)
      else
        let (m, e) := splitExp rest
        (c :: m, e)

/-- The mantissa grammar of Rust `str::parse::<f64>`:
`Count | Count '.' Count? | Count? '.' Count`. -/
def mantissaOk (cs : List Char) : Bool :=
  match splitOnChar '.' cs with
  | [whole] => isCount whole
  | [whole, frac] =>
      (isCount whole && (frac.isEmpty || isCount frac)) ||
        (whole.isEmpty && isCount frac)
  | _ => false

/-- Whether Rust `str::parse::<f64>` succeeds (the grammar of
`f64::from_str`: optional sign, then case-insensitive `inf`, `infinity`
or `nan`, or a decimal number with optional exponent).  The resulting
floating-point value is not modelled. -/
def rust_parse_f64_ok (cs0 : List Char) : Bool :=
  let cs := stripSign cs0
  let low := cs.map Char.toLower
  if low = "inf".data ∨ low = "infinity".data ∨ low = "nan".data then true
  else
    let (m, e) := splitExp cs
    mantissaOk m && match e with
      | none => true
      | some ex => isCount (stripSign ex)

/-- The entry loop of `Scenario::parse`; `idx` is the 0-based
`enumerate` index of the head of the remaining line list.  Reported
line numbers are `idx + 1`. -/
def scanEntries (idx : Nat) : List String → Except ScenarioError (List ScenarioEntry)
  | [] => Except.ok []
  | line :: rest =>
      let t := trimChars line.data
      if t.isEmpty then scanEntries (idx + 1) rest
      else
        let parts := splitOnChar '\t' t
        if parts.length < 9 then Except.error (ScenarioError.MalformedEntry (idx + 1))
        else
          match rust_parse_u32 (parts.getD 0 []), rust_parse_u32 (parts.getD 2 []),
              rust_parse_u32 (parts.getD 3 []), rust_parse_u32 (parts.getD 4 []),
              rust_parse_u32 (parts.getD 5 []), rust_parse_u32 (parts.getD 6 []),
              rust_parse_u32 (parts.getD 7 []) with
          | some bucket, some w, some h, some sx, some sy, some gx, some gy =>
              if rust_parse_f64_ok (parts.getD 8 []) then
                (scanEntries (idx + 1) rest).map fun entries =>
                  ⟨bucket, String.mk (parts.getD 1 []), w, h, sx, sy, gx, gy,
                    String.mk (parts.getD 8 [])⟩ :: entries
              else Except.error (ScenarioError.MalformedEntry (idx + 1))
          | _, _, _, _, _, _, _ =>
              Except.error (ScenarioError.MalformedEntry (idx + 1))

/-- The version-line loop of `Scenario::parse`: skip blank lines, then
require a `version ` prefix.  Returns the version, the `enumerate`
index of the next line, and the remaining lines. -/
def findVersion (idx : Nat) :
    List String → Except ScenarioError (Nat × Nat × List String)
  | [] => Except.error ScenarioError.MissingVersion
  | line :: rest =>
      let t := trimChars line.data
      if t.isEmpty then findVersion (idx + 1) rest
      else if "version ".data.isPrefixOf t then
        match rust_parse_u32 (trimChars (t.drop 8)) with
        | some v => Except.ok (v, idx + 1, rest)
        | none => Except.error ScenarioError.InvalidVersion
      else Except.error ScenarioError.MissingVersion

/-- `Scenario::parse`.  The source iterates `input.lines()`; the
embedding takes that line list directly. -/
def Scenario.parse (lines : List String) : Except ScenarioError Scenario :=
  match findVersion 0 lines with
  | Except.error e => Except.error e
  | Except.ok (v, idx, rest) =>
      (scanEntries idx rest).map fun entries => ⟨v, entries⟩

end MapCore

namespace Astar

/-- `astar.rs` `Coordinate`: a pair of `u32`s. -/
structure Coordinate where
  x : Nat
  y : Nat
  deriving DecidableEq, Repr

/-- `astar.rs` `Grid`: raw map data (1 = passable, 0 = blocked,
row-major) plus dimensions. -/
structure Grid where
  data : List Nat
  width : Nat
  height : Nat
  deriving DecidableEq, Repr

/-- `Grid::is_passable`.  The index `(y * self.width + x) as usize` is
`u32` arithmetic, hence the wrap; `data.get(idx).copied() == Some(1)`
is `get? = some 1`. -/
def Grid.is_passable (g : Grid) (x y : Nat) : Bool :=
  if x ≥ g.width || y ≥ g.height then false
  else g.data.get? ((y * g.width + x) % 4294967296) == some 1

/-- `astar.rs` `Path`. -/
structure Path where
  steps : List Coordinate
  deriving DecidableEq, Repr

/-- The four cardinal offsets, in source order (N, S, W, E). -/
def cardinals : List (Int × Int) := [(0, -1), (0, 1), (-1, 0), (1, 0)]

/-- `neighbors_grid`: in-bounds passable 4-neighbours.  The source
works on `x as i32` etc.; the casts are `u32_as_i32` and the `i32`
addition is wrapped. -/
def neighbors_grid (coord : Coordinate) (grid : Grid) : List (Coordinate × Nat) :=
  let x := u32_as_i32 coord.x
  let y := u32_as_i32 coord.y
  let w := u32_as_i32 grid.width
  let h := u32_as_i32 grid.height
  cardinals.filterMap fun dxy =>
    let nx := wrap_i32 (x + dxy.1)
    let ny := wrap_i32 (y + dxy.2)
    if 0 ≤ nx ∧ nx < w ∧ 0 ≤ ny ∧ ny < h then
      if grid.is_passable nx.toNat ny.toNat then
        some (⟨nx.toNat, ny.toNat⟩, 1)
      else none
    else none

/-- `heuristic`: Manhattan distance on the `as i32` reinterpretations
(`unsigned_abs` of the `i32` difference; the difference itself is
modelled exactly — debug-mode Rust panics when it overflows `i32`,
which requires coordinates ≥ 2^31 apart after reinterpretation). -/
def heuristic (a b : Coordinate) : Nat :=
  (u32_as_i32 a.x - u32_as_i32 b.x).natAbs + (u32_as_i32 a.y - u32_as_i32 b.y).natAbs

/-- `astar.rs` `GlobalState` for the centralized joint-state search. -/
structure GlobalState where
  positions : List Coordinate
  paths : List (List Coordinate)
  cost : Nat
  timestep : Nat
  goals : List Coordinate
  deriving DecidableEq, Repr

/-- `GlobalState::heuristic`: sum of per-agent Manhattan distances. -/
def GlobalState.heuristic (s : GlobalState) : Nat :=
  ((s.positions.zip s.goals).map fun pg => Astar.heuristic pg.1 pg.2).sum

/-- `GlobalState::f_cost`. -/
def GlobalState.f_cost (s : GlobalState) : Nat :=
  s.cost + s.heuristic

/-- Pop of the `BinaryHeap` of `GlobalState`s: remove an element with
minimal `f_cost` (the `Ord` implementation orders by reverse `f_cost`;
which of several ties is returned is unspecified in Rust — the
embedding takes the leftmost). -/
def popMin : List GlobalState → Option (GlobalState × List GlobalState)
  | [] => none
  | s :: rest =>
      match popMin rest with
      | none => some (s, [])
      | some (m, rest') =>
          if s.f_cost ≤ m.f_cost then some (s, rest) else some (m, s :: rest')

/-- The `backtrack` cartesian product over per-agent move lists, in the
source's enumeration order (agent 0 outermost). -/
def jointMoves : List (List Coordinate) → List (List Coordinate)
  | [] => [[]]
  | moves :: rest => moves.flatMap fun m => (jointMoves rest).map fun tl => m :: tl

/-- The vertex-conflict check on a joint move:
`next_positions.iter().all(|p| unique.insert(*p))` — all entries
pairwise distinct (each is checked against the previously inserted
ones). -/
def allDistinct : List Coordinate → Bool
  | [] => true
  | c :: rest => !rest.contains c && allDistinct rest

/-- The edge-conflict check on a joint move: some pair `i < j` with
`state.positions[i] == next_positions[j] &&
state.positions[j] == next_positions[i]`.  Structured as: the head
agent against each later agent, then the tail pairs. -/
def hasEdgeConflict : List Coordinate → List Coordinate → Bool
  | a :: cs, b :: ns =>
      ((cs.zip ns).any fun cn => a == cn.2 && cn.1 == b) || hasEdgeConflict cs ns
  | _, _ => false

/-- Per-agent move lists in the source's order: the cardinal
`neighbors_grid` targets, then the wait at the current cell. -/
def movesPerAgent (grid : Grid) (positions : List Coordinate) :
    List (List Coordinate) :=
  positions.map fun p => (neighbors_grid p grid).map Prod.fst ++ [p]

/-- Build the successor `GlobalState` for one accepted joint move
(`new_paths[i].push(next_positions[i])`, cost + 1, timestep + 1). -/
def mkNext (state : GlobalState) (np : List Coordinate) : GlobalState :=
  { positions := np
    paths := (state.paths.zip np).map fun pc => pc.1 ++ [pc.2]
    cost := state.cost + 1
    timestep := state.timestep + 1
    goals := state.goals }

/-- The joint-move filter loop of `solve_mapf_centralized_grid`: for
each joint move in order, skip vertex conflicts, edge conflicts and
already-visited `(positions, timestep + 1)` keys, inserting accepted
keys into `visited` as it goes; returns the accepted successor states
and the updated visited list. -/
def expandStates (state : GlobalState) (visited : List (List Coordinate × Nat)) :
    List (List Coordinate) → List GlobalState × List (List Coordinate × Nat)
  | [] => ([], visited)
  | np :: rest =>
      if allDistinct np && !hasEdgeConflict state.positions np &&
          !visited.contains (np, state.timestep + 1) then
        let out := expandStates state ((np, state.timestep + 1) :: visited) rest
        (mkNext state np :: out.1, out.2)
      else expandStates state visited rest

/-- The goal test: `state.positions.iter().zip(state.goals.iter())
.all(|(p, g)| p == g)`. -/
def atGoals (positions goals : List Coordinate) : Bool :=
  (positions.zip goals).all fun pg => pg.1 == pg.2

/-- The `while let Some(state) = open.pop()` loop of
`solve_mapf_centralized_grid`.  The Rust loop need not terminate (the
visited set is keyed by `(positions, timestep)` with unbounded
timesteps), so the embedding takes explicit fuel: a `some` result for
any fuel corresponds to a terminating run of the source. -/
def searchLoop (grid : Grid) :
    Nat → List GlobalState → List (List Coordinate × Nat) → Option (List Path)
  | 0, _, _ => none
  | fuel + 1, openSet, visited =>
      match popMin openSet with
      | none => none
      | some (state, rest) =>
          if atGoals state.positions state.goals then
            some (state.paths.map fun steps => ⟨steps⟩)
          else
            let out := expandStates state visited
              (jointMoves (movesPerAgent grid state.positions))
            searchLoop grid fuel (rest ++ out.1) out.2

/-- `solve_mapf_centralized_grid` (fuel-indexed, see `searchLoop`). -/
def solve_mapf_centralized_grid (fuel : Nat) (grid : Grid)
    (agents : List ((Nat × Nat) × (Nat × Nat))) : Option (List Path) :=
  let starts : List Coordinate := agents.map fun a => ⟨a.1.1, a.1.2⟩
  let goals : List Coordinate := agents.map fun a => ⟨a.2.1, a.2.2⟩
  let start_state : GlobalState :=
    ⟨starts, starts.map fun p => [p], 0, 0, goals⟩
  searchLoop grid fuel [start_state] [(starts, 0)]

end Astar

namespace Api

open Validation

/-- The configuration fields of `config.rs` that the modelled handler
logic reads.  (`solver_timeout_secs` and `solver_instruction_limit` are
only forwarded to the executor, whose run is an explicit argument
here.) -/
structure Config where
  max_wasm_size_mb : Nat
  deriving DecidableEq, Repr

/-- `api/solver.rs` `MapData`. -/
structure MapData where
  width : Nat
  height : Nat
  tiles : List Nat
  deriving DecidableEq, Repr

/-- `api/solver.rs` `VerifyRequest` (`wasm_bytes` is an opaque byte
vector — only its length is ever inspected). -/
structure VerifyRequest where
  wasm_bytes : List Nat
  map : MapData
  starts : List Coordinate
  goals : List Coordinate
  deriving DecidableEq, Repr

/-- `api/solver.rs` `SubmitRequest`. -/
structure SubmitRequest where
  solver_name : String
  map_name : String
  scenario_id : String
  wasm_bytes : List Nat
  map : MapData
  starts : List Coordinate
  goals : List Coordinate
  deriving DecidableEq, Repr

/-- `executor.rs` `SolverStats`. -/
structure SolverStats where
  instruction_count : Option Nat
  execution_time_ms : Nat
  deriving DecidableEq, Repr

/-- `executor.rs` `SolverResult`: what `WasmExecutor::execute` returns
on its `Ok` path. -/
structure SolverResult where
  solution : Option Solution
  error : Option String
  stats : SolverStats
  deriving DecidableEq, Repr

/-- `api/solver.rs` `ExecutionStats`. -/
structure ExecutionStats where
  instruction_count : Option Nat
  execution_time_ms : Nat
  cost : Option Int
  makespan : Option Int
  deriving DecidableEq, Repr

/-- `api/solver.rs` `VerifyResponse`. -/
structure VerifyResponse where
  valid : Bool
  solution : Option Solution
  validation_errors : List ValidationError
  stats : ExecutionStats
  error : Option String
  deriving DecidableEq, Repr

/-- The error kinds of `error.rs` reached by the modelled handlers.
Message strings are not modelled.  `Panic` stands for a Rust panic
inside the handler (an out-of-range index in the validator), which is
not an `AppError` in the source but likewise aborts the request. -/
inductive AppError where
  | BadRequest
  | WasmExecution
  | Panic
  deriving DecidableEq, Repr

/-- The cost/makespan computation shared by `verify` and `submit`
(performed only when validation succeeded): cost is the sum, makespan
the `max().unwrap_or(0)`, of the paths' step counts as `i64`. -/
def costAndMakespan (solution : Solution) : Int × Int :=
  ((solution.paths.map fun p => (p.steps.length : Int)).sum,
    (solution.paths.map fun p => (p.steps.length : Int)).foldr max 0)

/-- The `verify` handler.  `exec` is the outcome of
`executor.execute(...)` — the sandboxed run is I/O, so the handler is
modelled as a function of it; `Except.error` on `exec` models the
executor's own `Err` path. -/
def verify (cfg : Config) (req : VerifyRequest) (exec : Except String SolverResult) :
    Except AppError VerifyResponse :=
  let max_size := cfg.max_wasm_size_mb * 1024 * 1024
  if req.wasm_bytes.length > max_size then Except.error AppError.BadRequest
  else
    match exec with
    | Except.error _ => Except.error AppError.WasmExecution
    | Except.ok sr =>
        match sr.error with
        | some e =>
            Except.ok ⟨false, none, [],
              ⟨sr.stats.instruction_count, sr.stats.execution_time_ms, none, none⟩,
              some e⟩
        | none =>
            match sr.solution with
            | none => Except.error AppError.WasmExecution
            | some solution =>
                let grid_map : GridMap := ⟨req.map.width, req.map.height, req.map.tiles⟩
                match validate_solution solution grid_map req.starts req.goals with
                | none => Except.error AppError.Panic
                | some vres =>
                    let cm : Option Int × Option Int :=
                      if vres.valid then
                        (some (costAndMakespan solution).1,
                          some (costAndMakespan solution).2)
                      else (none, none)
                    Except.ok ⟨vres.valid, some solution, vres.errors,
                      ⟨sr.stats.instruction_count, sr.stats.execution_time_ms,
                        cm.1, cm.2⟩,
                      none⟩

/-- The observable outcome of the `submit` handler: the fields of the
persisted verification record that the modelled logic determines
(`valid` is the `valid && cost.is_some()` stored and reported). -/
structure SubmitOutcome where
  valid : Bool
  cost : Option Int
  makespan : Option Int
  deriving DecidableEq, Repr

/-- The `submit` handler.  Note: unlike `verify`, the source performs
no size check on `wasm_bytes`; after the empty-name check it hashes the
module, persists the submission and invokes the executor directly
(database writes are modelled as succeeding; the SHA-256 fingerprint
does not influence the outcome). -/
def submit (_cfg : Config) (req : SubmitRequest) (exec : Except String SolverResult) :
    Except AppError SubmitOutcome :=
  if req.solver_name.isEmpty || req.map_name.isEmpty || req.scenario_id.isEmpty then
    Except.error AppError.BadRequest
  else
    match exec with
    | Except.error _ => Except.error AppError.WasmExecution
    | Except.ok sr =>
        let valid := sr.error.isNone
        match sr.solution with
        | some solution =>
            let grid_map : GridMap := ⟨req.map.width, req.map.height, req.map.tiles⟩
            match validate_solution solution grid_map req.starts req.goals with
            | none => Except.error AppError.Panic
            | some vres =>
                if vres.valid then
                  Except.ok ⟨valid && true, some (costAndMakespan solution).1,
                    some (costAndMakespan solution).2⟩
                else Except.ok ⟨valid && false, none, none⟩
        | none => Except.ok ⟨valid && false, none, none⟩

end Api

/-! ## Helper lemmas about the validator -/

namespace Validation

/-- The Manhattan-distance relation of the specification on adjacent
steps. -/
def cardRel (a b : Coordinate) : Prop :=
  (b.x - a.x).natAbs + (b.y - a.y).natAbs ≤ 1

instance : DecidableRel cardRel := fun a b => by
  unfold cardRel
  infer_instance

theorem is_cardinal_move_iff {a b : Coordinate} :
    is_cardinal_move a b = true ↔ cardRel a b := by
  simp only [is_cardinal_move, cardRel, Bool.or_eq_true, Bool.and_eq_true, beq_iff_eq]
  omega

theorem cardinalScan_eq_nil :
    ∀ (l : List Coordinate) (i t : Nat),
      cardinalScan i t l = [] ↔ l.Chain' cardRel
  | [], _, _ => by simp [cardinalScan]
  | [_], _, _ => by simp [cardinalScan]
  | a :: b :: rest, i, t => by
      have ih := cardinalScan_eq_nil (b :: rest) i (t + 1)
      simp only [cardinalScan, List.append_eq_nil, List.chain'_cons]
      constructor
      · rintro ⟨h1, h2⟩
        refine ⟨?_, ih.mp h2⟩
        by_cases hc : is_cardinal_move a b
        · exact is_cardinal_move_iff.mp hc
        · simp [hc] at h1
      · rintro ⟨h1, h2⟩
        refine ⟨?_, ih.mpr h2⟩
        simp [is_cardinal_move_iff.mpr h1]

theorem validate_path_cardinal_eq_nil {p : Path} {i : Nat} :
    validate_path_cardinal p i = [] ↔ p.steps ≠ [] ∧ p.steps.Chain' cardRel := by
  unfold validate_path_cardinal
  by_cases h : p.steps.isEmpty
  · simp [h, List.isEmpty_iff.mp h]
  · rw [if_neg h]
    simp [cardinalScan_eq_nil, List.isEmpty_iff] at h ⊢
    exact fun _ => h

/-- The per-step acceptance condition of `validate_path_on_map`, in the
code's own shape. -/
def cellOK (map : GridMap) (c : Coordinate) : Prop :=
  ¬(c.x < 0 ∨ c.x ≥ u32_as_i32 map.width ∨ c.y < 0 ∨ c.y ≥ u32_as_i32 map.height) ∧
    map.tiles.get? ((c.y.toNat * map.width + c.x.toNat) % 4294967296) ≠ some 0

instance (map : GridMap) (c : Coordinate) : Decidable (cellOK map c) := by
  unfold cellOK; infer_instance

theorem onMapScan_eq_nil :
    ∀ (l : List Coordinate) (map : GridMap) (i t : Nat),
      onMapScan map i t l = [] ↔ ∀ c ∈ l, cellOK map c
  | [], _, _, _ => by simp [onMapScan]
  | pos :: rest, map, i, t => by
      have ih := onMapScan_eq_nil rest map i (t + 1)
      simp only [onMapScan, List.append_eq_nil, List.mem_cons]
      constructor
      · rintro ⟨h1, h2⟩
        intro c hc
        rcases hc with rfl | hc
        · constructor
          · intro hbad
            rw [if_pos (by simp; omega)] at h1
            simp at h1
          · intro hbad
            by_cases hb : c.x < 0 ∨ c.x ≥ u32_as_i32 map.width ∨
                c.y < 0 ∨ c.y ≥ u32_as_i32 map.height
            · rw [if_pos (by simp; omega)] at h1
              simp at h1
            · rw [if_neg (by simp; omega)] at h1
              rw [hbad] at h1
              simp at h1
        · exact (ih.mp h2) c hc
      · intro h
        have hhead := h pos (Or.inl rfl)
        refine ⟨?_, ih.mpr fun c hc => h c (Or.inr hc)⟩
        rw [if_neg (by have := hhead.1; simp; omega)]
        rcases hget : map.tiles.get? ((pos.y.toNat * map.width + pos.x.toNat) % 4294967296) with _ | v
        · simp
        · rcases v with _ | v
          · exact absurd hget hhead.2
          · simp

theorem validate_path_on_map_eq_nil {p : Path} {i : Nat} {map : GridMap} :
    validate_path_on_map p i map = [] ↔ ∀ c ∈ p.steps, cellOK map c :=
  onMapScan_eq_nil p.steps map i 0

theorem perPathScan_eq_nil :
    ∀ (l : List Path) (map : GridMap) (i : Nat),
      perPathScan map i l = [] ↔
        ∀ p ∈ l, (p.steps ≠ [] ∧ p.steps.Chain' cardRel) ∧ ∀ c ∈ p.steps, cellOK map c
  | [], _, _ => by simp [perPathScan]
  | p :: rest, map, i => by
      have ih := perPathScan_eq_nil rest map (i + 1)
      simp only [perPathScan, List.append_eq_nil, List.mem_cons]
      constructor
      · rintro ⟨⟨h1, h2⟩, h3⟩
        intro q hq
        rcases hq with rfl | hq
        · exact ⟨validate_path_cardinal_eq_nil.mp h1,
            validate_path_on_map_eq_nil.mp h2⟩
        · exact (ih.mp h3) q hq
      · intro h
        have hd := h p (Or.inl rfl)
        exact ⟨⟨validate_path_cardinal_eq_nil.mpr hd.1,
          validate_path_on_map_eq_nil.mpr hd.2⟩,
          ih.mpr fun q hq => h q (Or.inr hq)⟩

/-- The specification's parking position `Pᵢ[min(t, |Pᵢ|−1)]`. -/
def parkPos (p : Path) (t : Nat) : Option Coordinate :=
  p.steps.get? (min t (p.steps.length - 1))

/-- The specification's `min`-formula coincides with the code's
parking-position computation. -/
theorem parkPos_eq_posAt (p : Path) (t : Nat) : parkPos p t = posAt p t := by
  unfold parkPos posAt
  by_cases h : t < p.steps.length
  · rw [if_pos h]
    congr 1
    omega
  · rw [if_neg h]
    rcases hl : p.steps with _ | ⟨a, as⟩
    · simp
    · rw [List.getLast?_eq_get?]
      congr 1
      rw [hl] at h
      simp only [List.length_cons] at h ⊢
      omega

theorem sgScan_char :
    ∀ (l : List Path) (starts goals : List Coordinate) (i : Nat),
      i + l.length ≤ starts.length → i + l.length ≤ goals.length →
      ∃ es, sgScan starts goals i l = some es ∧
        (es = [] ↔ ∀ k p, l.get? k = some p → p.steps ≠ [] →
          p.steps.head? = starts.get? (i + k) ∧
          p.steps.getLast? = goals.get? (i + k))
  | [], starts, goals, i, _, _ => ⟨[], rfl, by simp⟩
  | p :: rest, starts, goals, i, h1, h2 => by
      simp only [List.length_cons] at h1 h2
      obtain ⟨es, heq, hiff⟩ := sgScan_char rest starts goals (i + 1)
        (by omega) (by omega)
      by_cases hemp : p.steps.isEmpty
      · refine ⟨es, by simp [sgScan, hemp, heq], ?_⟩
        rw [hiff]
        constructor
        · intro h k q hkq hne
          cases k with
          | zero =>
              simp only [List.get?] at hkq
              cases hkq
              exact absurd (List.isEmpty_iff.mp hemp) hne
          | succ k =>
              have := h k q (by simpa using hkq) hne
              rwa [show i + 1 + k = i + (k + 1) by omega] at this
        · intro h k q hkq hne
          have := h (k + 1) q (by simpa using hkq) hne
          rwa [show i + (k + 1) = i + 1 + k by omega] at this
      · have hne : p.steps ≠ [] := by simpa [List.isEmpty_iff] using hemp
        obtain ⟨ps, hps⟩ : ∃ ps, p.steps.head? = some ps := by
          rcases hl : p.steps with _ | ⟨a, as⟩
          · exact absurd hl hne
          · exact ⟨a, rfl⟩
        have hpe : p.steps.getLast? = some (p.steps.getLast hne) :=
          List.getLast?_eq_getLast p.steps hne
        obtain ⟨s0, hs0⟩ : ∃ s0, starts.get? i = some s0 := by
          rcases hg : starts.get? i with _ | s0
          · rw [List.get?_eq_none] at hg
            omega
          · exact ⟨s0, rfl⟩
        obtain ⟨g0, hg0⟩ : ∃ g0, goals.get? i = some g0 := by
          rcases hg : goals.get? i with _ | g0
          · rw [List.get?_eq_none] at hg
            omega
          · exact ⟨g0, rfl⟩
        refine ⟨(if ps.x != s0.x || ps.y != s0.y then
            [⟨ValidationErrorType.InvalidStart, i, some 0⟩] else []) ++
          (if (p.steps.getLast hne).x != g0.x || (p.steps.getLast hne).y != g0.y then
            [⟨ValidationErrorType.InvalidGoal, i, some (p.steps.length - 1)⟩] else []) ++
          es, ?_, ?_⟩
        · simp only [sgScan, hemp, Bool.false_eq_true, if_false, hps, hpe, hs0, hg0,
            heq, Option.map_some']
        · simp only [List.append_eq_nil]
          constructor
          · rintro ⟨⟨e1, e2⟩, e3⟩
            intro k q hkq hq
            cases k with
            | zero =>
                simp only [List.get?] at hkq
                cases hkq
                have hx : ps.x = s0.x ∧ ps.y = s0.y := by
                  by_cases hc : ps.x != s0.x || ps.y != s0.y
                  · simp [hc] at e1
                  · simpa using hc
                have hy : (p.steps.getLast hne).x = g0.x ∧
                    (p.steps.getLast hne).y = g0.y := by
                  by_cases hc : (p.steps.getLast hne).x != g0.x ||
                      (p.steps.getLast hne).y != g0.y
                  · simp [hc] at e2
                  · simpa using hc
                have hps0 : ps = s0 := by
                  cases ps; cases s0
                  simp_all
                have hpg0 : p.steps.getLast hne = g0 := by
                  cases hgl : p.steps.getLast hne
                  cases g0
                  rw [hgl] at hy
                  simp_all
                rw [Nat.add_zero, hps, hs0, hpe, hg0, hps0, hpg0]
                exact ⟨rfl, rfl⟩
            | succ k =>
                have := (hiff.mp e3) k q (by simpa using hkq) hq
                rwa [show i + 1 + k = i + (k + 1) by omega] at this
          · intro h
            have hd := h 0 p rfl hne
            rw [Nat.add_zero, hps, hs0, hpe, hg0] at hd
            have hd1 : ps = s0 := by
              have := hd.1
              simpa using this
            have hd2 : p.steps.getLast hne = g0 := by
              have := hd.2
              simpa using this
            refine ⟨⟨?_, ?_⟩, ?_⟩
            · rw [hd1]
              simp
            · rw [hd2]
              simp
            · refine hiff.mpr fun k q hkq hq => ?_
              have := h (k + 1) q (by simpa using hkq) hq
              rwa [show i + (k + 1) = i + 1 + k by omega] at this

theorem validate_starts_and_goals_char {paths : List Path}
    {starts goals : List Coordinate}
    (h1 : paths.length ≤ starts.length) (h2 : paths.length ≤ goals.length) :
    ∃ es, validate_starts_and_goals paths starts goals = some es ∧
      (es = [] ↔ ∀ k p, paths.get? k = some p → p.steps ≠ [] →
        p.steps.head? = starts.get? k ∧ p.steps.getLast? = goals.get? k) := by
  obtain ⟨es, heq, hiff⟩ := sgScan_char paths starts goals 0 (by omega) (by omega)
  exact ⟨es, heq, by simpa using hiff⟩

/-- The vertex-collision errors the validator emits at timestep `t`,
in closed form: one error for each agent `a` whose parking position at
`t` exists and is shared with some lower-indexed agent, attributed to
`a` and carrying `t`. -/
def specVertexErrorsAt (paths : List Path) (t : Nat) : List ValidationError :=
  (List.range paths.length).filterMap fun a =>
    match posAt (paths.getD a ⟨[]⟩) t with
    | some pos =>
        if ∃ b < a, posAt (paths.getD b ⟨[]⟩) t = some pos then
          some ⟨ValidationErrorType.VertexCollision, a, some t⟩
        else none
    | none => none

theorem coordinate_eq_of_xy {c d : Coordinate} (hx : c.x = d.x) (hy : c.y = d.y) :
    c = d := by
  cases c; cases d; simp_all

theorem vertexScan_eq_spec :
    ∀ (l : List Path) (paths : List Path) (a t : Nat)
      (occ : List ((Int × Int) × Nat)),
      paths.drop a = l →
      (∀ c : Coordinate, (occ.lookup (c.x, c.y)).isSome = true ↔
        ∃ b < a, posAt (paths.getD b ⟨[]⟩) t = some c) →
      vertexScan t a occ l = (List.range' a l.length).filterMap fun k =>
        match posAt (paths.getD k ⟨[]⟩) t with
        | some pos =>
            if ∃ b < k, posAt (paths.getD b ⟨[]⟩) t = some pos then
              some ⟨ValidationErrorType.VertexCollision, k, some t⟩
            else none
        | none => none
  | [], _, _, _, _, _, _ => by simp [vertexScan]
  | p :: rest, paths, a, t, occ, hdrop, hinv => by
      have hget : paths.get? a = some p := by
        have := List.get?_drop paths a 0
        rw [hdrop] at this
        simpa using this.symm
      have hgetD : paths.getD a ⟨[]⟩ = p := by
        have hdef : paths.getD a ⟨[]⟩ = (paths.get? a).getD ⟨[]⟩ := rfl
        rw [hdef, hget]
        rfl
      have hdrop' : paths.drop (a + 1) = rest := by
        have := List.tail_drop paths a
        rw [hdrop] at this
        simpa using this.symm
      have hrange : List.range' a (rest.length + 1) =
          a :: List.range' (a + 1) rest.length := List.range'_succ a rest.length 1
      simp only [List.length_cons, hrange, List.filterMap_cons]
      rcases hpos : posAt p t with _ | pos
      · -- the agent has no position at `t` (empty path): skipped
        have hnext : ∀ c : Coordinate, (occ.lookup (c.x, c.y)).isSome = true ↔
            ∃ b < a + 1, posAt (paths.getD b ⟨[]⟩) t = some c := by
          intro c
          rw [hinv c]
          constructor
          · rintro ⟨b, hb, hbpos⟩
            exact ⟨b, by omega, hbpos⟩
          · rintro ⟨b, hb, hbpos⟩
            rcases Nat.lt_succ_iff_lt_or_eq.mp hb with hb' | rfl
            · exact ⟨b, hb', hbpos⟩
            · rw [hgetD, hpos] at hbpos
              cases hbpos
        simp only [vertexScan, hgetD, hpos]
        exact vertexScan_eq_spec rest paths (a + 1) t occ hdrop' hnext
      · rcases hlook : occ.lookup (pos.x, pos.y) with _ | v
        · -- first agent at this cell: insert and recurse
          have hnotex : ¬∃ b < a, posAt (paths.getD b ⟨[]⟩) t = some pos := by
            intro hex
            have := (hinv pos).mpr hex
            rw [hlook] at this
            cases this
          simp only [vertexScan, hgetD, hpos, hlook, if_neg hnotex]
          have hnext : ∀ c : Coordinate,
              ((((pos.x, pos.y), a) :: occ).lookup (c.x, c.y)).isSome = true ↔
              ∃ b < a + 1, posAt (paths.getD b ⟨[]⟩) t = some c := by
            intro c
            by_cases hc : c = pos
            · subst hc
              constructor
              · intro _
                exact ⟨a, by omega, by rw [hgetD, hpos]⟩
              · intro _
                simp [List.lookup]
            · have hkey : ((c.x, c.y) == (pos.x, pos.y)) = false := by
                apply beq_false_of_ne
                intro hk
                exact hc (coordinate_eq_of_xy (congrArg Prod.fst hk)
                  (congrArg Prod.snd hk))
              constructor
              · intro hs
                simp only [List.lookup, hkey] at hs
                obtain ⟨b, hb, hbpos⟩ := (hinv c).mp hs
                exact ⟨b, by omega, hbpos⟩
              · rintro ⟨b, hb, hbpos⟩
                rcases Nat.lt_succ_iff_lt_or_eq.mp hb with hb' | rfl
                · have := (hinv c).mpr ⟨b, hb', hbpos⟩
                  simpa [List.lookup, hkey] using this
                · rw [hgetD, hpos] at hbpos
                  cases hbpos
                  exact absurd rfl hc
          exact vertexScan_eq_spec rest paths (a + 1) t
            (((pos.x, pos.y), a) :: occ) hdrop' hnext
        · -- a lower-indexed agent already occupies the cell: emit error
          have hex : ∃ b < a, posAt (paths.getD b ⟨[]⟩) t = some pos :=
            (hinv pos).mp (by rw [hlook]; rfl)
          simp only [vertexScan, hgetD, hpos, hlook, if_pos hex]
          have hnext : ∀ c : Coordinate, (occ.lookup (c.x, c.y)).isSome = true ↔
              ∃ b < a + 1, posAt (paths.getD b ⟨[]⟩) t = some c := by
            intro c
            rw [hinv c]
            constructor
            · rintro ⟨b, hb, hbpos⟩
              exact ⟨b, by omega, hbpos⟩
            · rintro ⟨b, hb, hbpos⟩
              rcases Nat.lt_succ_iff_lt_or_eq.mp hb with hb' | heq
              · exact ⟨b, hb', hbpos⟩
              · subst heq
                rw [hgetD, hpos] at hbpos
                cases hbpos
                exact hex
          rw [vertexScan_eq_spec rest paths (a + 1) t occ hdrop' hnext]

/-- `validate_no_vertex_collisions` in closed form: for each timestep
below `Tmax` and each agent, one error exactly when the agent's parking
position is shared with a lower-indexed agent. -/
theorem validate_no_vertex_collisions_eq (paths : List Path) :
    validate_no_vertex_collisions paths =
      (List.range (maxLen paths)).flatMap (specVertexErrorsAt paths) := by
  unfold validate_no_vertex_collisions specVertexErrorsAt
  congr 1
  funext t
  have := vertexScan_eq_spec paths paths 0 t [] (by simp) (by simp [List.lookup])
  rw [this, List.range_eq_range']

theorem validate_no_vertex_collisions_eq_nil_iff (paths : List Path) :
    validate_no_vertex_collisions paths = [] ↔
      ∀ t < maxLen paths, ∀ a < paths.length, ∀ pos,
        posAt (paths.getD a ⟨[]⟩) t = some pos →
        ¬∃ b < a, posAt (paths.getD b ⟨[]⟩) t = some pos := by
  rw [validate_no_vertex_collisions_eq, List.bind_eq_nil]
  constructor
  · intro h t ht a ha pos hpos hex
    have h2 := h t (List.mem_range.mpr ht)
    unfold specVertexErrorsAt at h2
    rw [List.filterMap_eq_nil] at h2
    have h3 := h2 a (List.mem_range.mpr ha)
    simp only [hpos, if_pos hex] at h3
    cases h3
  · intro h t ht
    rw [List.mem_range] at ht
    unfold specVertexErrorsAt
    rw [List.filterMap_eq_nil]
    intro a ha
    rw [List.mem_range] at ha
    rcases hpos : posAt (paths.getD a ⟨[]⟩) t with _ | pos
    · rfl
    · simp only [hpos, if_neg (h t ht a ha pos hpos)]

/-- The swap test of `validate_no_edge_collisions` on one ordered pair
of paths at timestep `t` (false whenever any of the four parking
positions is missing, as in the source's `continue`s). -/
def swapAt (p q : Path) (t : Nat) : Bool :=
  match posAt p t, posAt p (t + 1), posAt q t, posAt q (t + 1) with
  | some pit, some pit1, some pjt, some pjt1 =>
      pit.x == pjt1.x && pit.y == pjt1.y && pjt.x == pit1.x && pjt.y == pit1.y
  | _, _, _, _ => false

theorem edgePairScan_eq_nil :
    ∀ (l : List Path) (t i : Nat) (p : Path) (j : Nat),
      edgePairScan t i p j l = [] ↔ ∀ q ∈ l, swapAt p q t = false
  | [], _, _, _, _ => by simp [edgePairScan]
  | q :: rest, t, i, p, j => by
      have ih := edgePairScan_eq_nil rest t i p (j + 1)
      simp only [edgePairScan, List.append_eq_nil, List.mem_cons]
      constructor
      · rintro ⟨h1, h2⟩
        intro r hr
        rcases hr with rfl | hr
        · rcases h1t : posAt p t with _ | pit <;>
            rcases h1t1 : posAt p (t + 1) with _ | pit1 <;>
            rcases h2t : posAt r t with _ | pjt <;>
            rcases h2t1 : posAt r (t + 1) with _ | pjt1 <;>
            simp only [swapAt, h1t, h1t1, h2t, h2t1]
          simp only [h1t, h1t1, h2t, h2t1] at h1
          by_cases hc : (pit.x == pjt1.x && pit.y == pjt1.y &&
              pjt.x == pit1.x && pjt.y == pit1.y) = true
          · rw [if_pos hc] at h1
            cases h1
          · simpa using hc
        · exact (ih.mp h2) r hr
      · intro h
        refine ⟨?_, ih.mpr fun r hr => h r (Or.inr hr)⟩
        have hq := h q (Or.inl rfl)
        rcases h1t : posAt p t with _ | pit <;>
          rcases h1t1 : posAt p (t + 1) with _ | pit1 <;>
          rcases h2t : posAt q t with _ | pjt <;>
          rcases h2t1 : posAt q (t + 1) with _ | pjt1 <;>
          simp only [swapAt, h1t, h1t1, h2t, h2t1] at hq ⊢ <;>
          simp [hq]

theorem edgeScan_eq_nil :
    ∀ (l : List Path) (t i : Nat),
      edgeScan t i l = [] ↔ l.Pairwise fun p q => swapAt p q t = false
  | [], _, _ => by simp [edgeScan]
  | p :: rest, t, i => by
      have ih := edgeScan_eq_nil rest t (i + 1)
      simp only [edgeScan, List.append_eq_nil, List.pairwise_cons]
      rw [edgePairScan_eq_nil, ih]

theorem validate_no_edge_collisions_eq_nil_iff (paths : List Path) :
    validate_no_edge_collisions paths = [] ↔
      ∀ t < maxLen paths - 1,
        paths.Pairwise fun p q => swapAt p q t = false := by
  unfold validate_no_edge_collisions
  rw [List.bind_eq_nil]
  constructor
  · intro h t ht
    rw [← edgeScan_eq_nil paths t 0]
    exact h t (List.mem_range.mpr ht)
  · intro h t ht
    rw [List.mem_range] at ht
    rw [edgeScan_eq_nil paths t 0]
    exact h t ht

/-- Two agents sharing a cell at timestep `t` under the specification's
parking positions. -/
def sameCellAt (p q : Path) (t : Nat) : Bool :=
  match parkPos p t, parkPos q t with
  | some c, some c' => c == c'
  | _, _ => false

/-- Two agents swapping cells between `t` and `t + 1` under the
specification's parking positions. -/
def specSwapAt (p q : Path) (t : Nat) : Bool :=
  match parkPos p t, parkPos p (t + 1), parkPos q t, parkPos q (t + 1) with
  | some a, some a', some b, some b' => a == b' && b == a'
  | _, _, _, _ => false

theorem coord_beq_split (a b : Coordinate) :
    (a == b) = (a.x == b.x && a.y == b.y) := by
  rw [Bool.eq_iff_iff]
  simp only [beq_iff_eq, Bool.and_eq_true]
  constructor
  · rintro rfl
    exact ⟨rfl, rfl⟩
  · rintro ⟨h1, h2⟩
    exact coordinate_eq_of_xy h1 h2

theorem specSwapAt_eq_swapAt (p q : Path) (t : Nat) :
    specSwapAt p q t = swapAt p q t := by
  unfold specSwapAt swapAt
  rw [parkPos_eq_posAt p t, parkPos_eq_posAt p (t + 1),
    parkPos_eq_posAt q t, parkPos_eq_posAt q (t + 1)]
  rcases posAt p t with _ | a <;> rcases posAt p (t + 1) with _ | a' <;>
    rcases posAt q t with _ | b <;> rcases posAt q (t + 1) with _ | b' <;>
    try rfl
  rw [Bool.eq_iff_iff]
  simp only [Bool.and_eq_true, beq_iff_eq]
  constructor
  · rintro ⟨rfl, rfl⟩
    exact ⟨⟨⟨rfl, rfl⟩, rfl⟩, rfl⟩
  · rintro ⟨⟨⟨h1, h2⟩, h3⟩, h4⟩
    exact ⟨coordinate_eq_of_xy h1 h2, coordinate_eq_of_xy h3 h4⟩

theorem sameCellAt_eq_false_iff (p q : Path) (t : Nat) :
    sameCellAt p q t = false ↔
      ∀ c c', posAt p t = some c → posAt q t = some c' → c ≠ c' := by
  unfold sameCellAt
  rw [parkPos_eq_posAt p t, parkPos_eq_posAt q t]
  rcases hp : posAt p t with _ | c
  · simp
  · rcases hq : posAt q t with _ | c'
    · simp
    · simp only [beq_eq_false_iff_ne, ne_eq]
      constructor
      · rintro h d d' hd hd'
        cases hd; cases hd'
        exact h
      · intro h
        exact h c c' rfl rfl

/-- The validator's acceptance condition as the specification states it
(claim C1's right-hand side): every path non-empty; every step in
bounds and on a non-zero tile; adjacent steps within Manhattan
distance 1; endpoints matching `starts`/`goals`; and, with parking
positions `Pᵢ[min(t,|Pᵢ|−1)]`, no shared cell at any timestep and no
swap across consecutive timesteps. -/
def SpecValidPlan (sol : Solution) (map : GridMap)
    (starts goals : List Coordinate) : Prop :=
  (∀ p ∈ sol.paths, p.steps ≠ []) ∧
  (∀ p ∈ sol.paths, ∀ c ∈ p.steps,
    0 ≤ c.x ∧ c.x < (map.width : Int) ∧ 0 ≤ c.y ∧ c.y < (map.height : Int) ∧
    map.tiles.getD (c.y.toNat * map.width + c.x.toNat) 0 ≠ 0) ∧
  (∀ p ∈ sol.paths, p.steps.Chain' cardRel) ∧
  (∀ i < sol.paths.length,
    (sol.paths.getD i ⟨[]⟩).steps.head? = starts.get? i ∧
    (sol.paths.getD i ⟨[]⟩).steps.getLast? = goals.get? i) ∧
  (∀ t < maxLen sol.paths, ∀ j < sol.paths.length, ∀ i < j,
    sameCellAt (sol.paths.getD i ⟨[]⟩) (sol.paths.getD j ⟨[]⟩) t = false) ∧
  (∀ t < maxLen sol.paths - 1, ∀ j < sol.paths.length, ∀ i < j,
    specSwapAt (sol.paths.getD i ⟨[]⟩) (sol.paths.getD j ⟨[]⟩) t = false)

instance (sol : Solution) (map : GridMap) (starts goals : List Coordinate) :
    Decidable (SpecValidPlan sol map starts goals) := by
  unfold SpecValidPlan
  infer_instance

theorem get?_eq_some_getD {α : Type} {l : List α} {k : Nat} (h : k < l.length)
    (d : α) : l.get? k = some (l.getD k d) := by
  rcases hq : l.get? k with _ | a
  · rw [List.get?_eq_none] at hq
    omega
  · have : l.getD k d = (l.get? k).getD d := rfl
    rw [this, hq]
    rfl

/-- The translation of the code-shaped per-cell condition into the
specification's bounds-and-passability statement, valid in the regime
where the `u32`/`i32` casts of the source are exact. -/
theorem cellOK_iff {map : GridMap} {c : Coordinate}
    (htiles : map.tiles.length = map.width * map.height)
    (hw : map.width < 2147483648) (hh : map.height < 2147483648)
    (hwh : map.width * map.height ≤ 4294967296) :
    cellOK map c ↔
      0 ≤ c.x ∧ c.x < (map.width : Int) ∧ 0 ≤ c.y ∧ c.y < (map.height : Int) ∧
      map.tiles.getD (c.y.toNat * map.width + c.x.toNat) 0 ≠ 0 := by
  unfold cellOK
  rw [u32_as_i32_of_lt hw, u32_as_i32_of_lt hh]
  constructor
  · rintro ⟨hb, hblk⟩
    push_neg at hb
    obtain ⟨hx0, hxw, hy0, hyh⟩ := hb
    refine ⟨hx0, hxw, hy0, hyh, ?_⟩
    have hidx : c.y.toNat * map.width + c.x.toNat < map.width * map.height := by
      have hx : c.x.toNat < map.width := by omega
      have hy : c.y.toNat < map.height := by omega
      calc c.y.toNat * map.width + c.x.toNat
          < c.y.toNat * map.width + map.width := by omega
        _ = (c.y.toNat + 1) * map.width := by ring
        _ ≤ map.height * map.width := by
            exact Nat.mul_le_mul_right _ (by omega)
        _ = map.width * map.height := by ring
    have hmod : (c.y.toNat * map.width + c.x.toNat) % 4294967296 =
        c.y.toNat * map.width + c.x.toNat := Nat.mod_eq_of_lt (by omega)
    rw [hmod] at hblk
    rw [get?_eq_some_getD (by omega) 0] at hblk
    intro h0
    exact hblk (by rw [h0])
  · rintro ⟨hx0, hxw, hy0, hyh, hblk⟩
    refine ⟨by push_neg; exact ⟨hx0, hxw, hy0, hyh⟩, ?_⟩
    have hidx : c.y.toNat * map.width + c.x.toNat < map.width * map.height := by
      have hx : c.x.toNat < map.width := by omega
      have hy : c.y.toNat < map.height := by omega
      calc c.y.toNat * map.width + c.x.toNat
          < c.y.toNat * map.width + map.width := by omega
        _ = (c.y.toNat + 1) * map.width := by ring
        _ ≤ map.height * map.width := Nat.mul_le_mul_right _ (by omega)
        _ = map.width * map.height := by ring
    have hmod : (c.y.toNat * map.width + c.x.toNat) % 4294967296 =
        c.y.toNat * map.width + c.x.toNat := Nat.mod_eq_of_lt (by omega)
    rw [hmod, get?_eq_some_getD (by omega) 0]
    intro heq
    exact hblk (Option.some.inj heq)

theorem getD_eq_get {α : Type} {l : List α} {k : Nat} (h : k < l.length)
    (d : α) : l.getD k d = l.get ⟨k, h⟩ := by
  have h1 := get?_eq_some_getD h d
  rw [List.get?_eq_get h] at h1
  exact (Option.some.inj h1).symm

theorem getD_mem {α : Type} {l : List α} {k : Nat} (h : k < l.length) (d : α) :
    l.getD k d ∈ l := by
  rw [getD_eq_get h d]
  exact List.get_mem l k h

theorem get?_lt_length {α : Type} {l : List α} {k : Nat} {a : α}
    (h : l.get? k = some a) : k < l.length := by
  by_contra hk
  rw [List.get?_eq_none.mpr (by omega)] at h
  cases h

/-- C1: for every grid, plan and equal-length starts/goals (with the
grid satisfying the data model's `tiles.length = W·H` invariant, the
plan having at most one path per agent, and the dimensions inside the
regime where the source's `u32`/`i32` casts are exact),
`validate_solution` succeeds and reports `valid` exactly when the
specification's conjunction holds: all paths non-empty, all steps in
bounds and on passable tiles, all adjacent steps within Manhattan
distance 1, endpoints matching, and — with parking semantics — no
vertex collision at any timestep and no edge swap across consecutive
timesteps. -/
theorem validate_solution_valid_iff
    (sol : Solution) (map : GridMap) (starts goals : List Coordinate)
    (hsg : starts.length = goals.length)
    (hlen : sol.paths.length ≤ starts.length)
    (htiles : map.tiles.length = map.width * map.height)
    (hw : map.width < 2147483648) (hh : map.height < 2147483648)
    (hwh : map.width * map.height ≤ 4294967296) :
    ∃ res, validate_solution sol map starts goals = some res ∧
      (res.valid = true ↔ SpecValidPlan sol map starts goals) := by
  obtain ⟨sg, hsgeq, hsgiff⟩ :=
    @validate_starts_and_goals_char sol.paths starts goals hlen (by omega)
  simp only [validate_solution, hsgeq]
  refine ⟨_, rfl, ?_⟩
  rw [List.isEmpty_iff, List.append_eq_nil, List.append_eq_nil]
  unfold SpecValidPlan
  constructor
  · rintro ⟨⟨hA, hB⟩, hC⟩
    have h123 := (perPathScan_eq_nil sol.paths map 0).mp hA
    have hcoll : sol.paths.length > 1 →
        validate_no_vertex_collisions sol.paths = [] ∧
        validate_no_edge_collisions sol.paths = [] := by
      intro hgt
      rw [if_pos hgt] at hC
      exact List.append_eq_nil.mp hC
    refine ⟨fun p hp => ((h123 p hp).1).1,
      fun p hp => ?_,
      fun p hp => ((h123 p hp).1).2,
      fun i hi => ?_, ?_, ?_⟩
    · intro c hc
      exact (cellOK_iff htiles hw hh hwh).mp ((h123 p hp).2 c hc)
    · have hne : (sol.paths.getD i ⟨[]⟩).steps ≠ [] :=
        ((h123 _ (getD_mem hi ⟨[]⟩)).1).1
      exact (hsgiff.mp hB) i _ (get?_eq_some_getD hi ⟨[]⟩) hne
    · intro t ht j hj i hij
      by_cases hgt : sol.paths.length > 1
      · have hvert := (validate_no_vertex_collisions_eq_nil_iff sol.paths).mp
          (hcoll hgt).1
        rw [sameCellAt_eq_false_iff]
        intro c c' hc hc' hcc
        exact hvert t ht j hj c' hc' ⟨i, hij, by rw [hc, hcc]⟩
      · omega
    · intro t ht j hj i hij
      by_cases hgt : sol.paths.length > 1
      · have hedge := (validate_no_edge_collisions_eq_nil_iff sol.paths).mp
          (hcoll hgt).2 t ht
        rw [List.pairwise_iff_get] at hedge
        rw [specSwapAt_eq_swapAt]
        have := hedge ⟨i, by omega⟩ ⟨j, hj⟩ hij
        rwa [← getD_eq_get (by omega) (⟨[]⟩ : Path), ← getD_eq_get hj ⟨[]⟩] at this
      · omega
  · rintro ⟨h1, h2, h3, h4, h5, h6⟩
    refine ⟨⟨(perPathScan_eq_nil sol.paths map 0).mpr fun p hp =>
      ⟨⟨h1 p hp, h3 p hp⟩, fun c hc =>
        (cellOK_iff htiles hw hh hwh).mpr (h2 p hp c hc)⟩, ?_⟩, ?_⟩
    · refine hsgiff.mpr fun k p hk _ => ?_
      have hklt : k < sol.paths.length := get?_lt_length hk
      have hgd : sol.paths.get? k = some (sol.paths.getD k ⟨[]⟩) :=
        get?_eq_some_getD hklt ⟨[]⟩
      have : p = sol.paths.getD k ⟨[]⟩ := by
        rw [hk] at hgd
        exact Option.some.inj hgd
      rw [this]
      exact h4 k hklt
    · by_cases hgt : sol.paths.length > 1
      · rw [if_pos hgt, List.append_eq_nil]
        constructor
        · rw [validate_no_vertex_collisions_eq_nil_iff]
          intro t ht a ha pos hpos hex
          obtain ⟨b, hb, hbpos⟩ := hex
          have := (sameCellAt_eq_false_iff _ _ t).mp (h5 t ht a ha b hb)
          exact this pos pos hbpos hpos rfl
        · rw [validate_no_edge_collisions_eq_nil_iff]
          intro t ht
          rw [List.pairwise_iff_get]
          intro i j hij
          have := h6 t ht j j.isLt i hij
          rwa [specSwapAt_eq_swapAt, getD_eq_get (by omega) (⟨[]⟩ : Path),
            getD_eq_get j.isLt ⟨[]⟩] at this
      · rw [if_neg hgt]

/-- C1 witness: a concrete instance on which the theorem's hypotheses
hold and the reported verdict matches the specification. -/
theorem validate_solution_valid_iff_witness :
    ∃ res, validate_solution ⟨[⟨[⟨0, 0⟩, ⟨1, 0⟩]⟩]⟩ ⟨2, 1, [1, 1]⟩
        [⟨0, 0⟩] [⟨1, 0⟩] = some res ∧
      (res.valid = true ↔
        SpecValidPlan ⟨[⟨[⟨0, 0⟩, ⟨1, 0⟩]⟩]⟩ ⟨2, 1, [1, 1]⟩ [⟨0, 0⟩] [⟨1, 0⟩]) :=
  validate_solution_valid_iff ⟨[⟨[⟨0, 0⟩, ⟨1, 0⟩]⟩]⟩ ⟨2, 1, [1, 1]⟩
    [⟨0, 0⟩] [⟨1, 0⟩] (by decide) (by decide) (by decide) (by decide)
    (by decide) (by decide)

/-- C3: `validate_solution` is total — returns a result rather than
panicking — whenever the plan has at most as many paths as there are
starts and goals (the `starts[i]` / `goals[i]` accesses are then always
in bounds). -/
theorem validate_solution_total
    (sol : Solution) (map : GridMap) (starts goals : List Coordinate)
    (h1 : sol.paths.length ≤ starts.length)
    (h2 : sol.paths.length ≤ goals.length) :
    ∃ res, validate_solution sol map starts goals = some res := by
  obtain ⟨sg, hsgeq, _⟩ :=
    @validate_starts_and_goals_char sol.paths starts goals h1 h2
  simp only [validate_solution, hsgeq]
  exact ⟨_, rfl⟩

/-- C3 witness: the theorem applied to a concrete in-precondition
input. -/
theorem validate_solution_total_witness :
    ∃ res, validate_solution ⟨[⟨[⟨0, 0⟩]⟩]⟩ ⟨1, 1, [1]⟩ [⟨0, 0⟩] [⟨0, 0⟩] =
      some res :=
  validate_solution_total ⟨[⟨[⟨0, 0⟩]⟩]⟩ ⟨1, 1, [1]⟩ [⟨0, 0⟩] [⟨0, 0⟩]
    (by decide) (by decide)

/-- C5 counterexample: three agents parked on the same cell produce two
`VertexCollision` errors (one per agent after the first at the cell),
not the claimed `3·(3−1)/2 = 3` errors, one per colliding pair. -/
theorem vertex_collision_pair_count_cex :
    validate_no_vertex_collisions [⟨[⟨0, 0⟩]⟩, ⟨[⟨0, 0⟩]⟩, ⟨[⟨0, 0⟩]⟩] =
      [⟨ValidationErrorType.VertexCollision, 1, some 0⟩,
        ⟨ValidationErrorType.VertexCollision, 2, some 0⟩] ∧
    (validate_no_vertex_collisions
      [⟨[⟨0, 0⟩]⟩, ⟨[⟨0, 0⟩]⟩, ⟨[⟨0, 0⟩]⟩]).length ≠ 3 * (3 - 1) / 2 := by
  constructor
  · rfl
  · decide

/-- C5 (amended): the validator's vertex-collision output in closed
form — for each timestep `t` below `Tmax` and each agent `a` (in index
order) whose parking position at `t` is shared with some lower-indexed
agent, exactly one `VertexCollision` error attributed to `a` and
carrying `t`; so `k` agents sharing one cell yield `k − 1` errors, not
one per pair. -/
theorem vertex_collision_errors_closed_form (paths : List Path) :
    validate_no_vertex_collisions paths =
      (List.range (maxLen paths)).flatMap (specVertexErrorsAt paths) :=
  validate_no_vertex_collisions_eq paths

/-- `validate_solution` always reports `valid = errors.isEmpty`. -/
theorem validate_solution_some_valid {sol : Solution} {map : GridMap}
    {starts goals : List Coordinate} {vres : ValidationResult}
    (h : validate_solution sol map starts goals = some vres) :
    vres.valid = vres.errors.isEmpty := by
  unfold validate_solution at h
  split at h
  · cases h
  · cases h
    rfl

end Validation

namespace Api

open Validation

theorem foldr_max_le (xs : List Int) : ∀ x ∈ xs, x ≤ xs.foldr max 0 := by
  induction xs with
  | nil => simp
  | cons a rest ih =>
      intro x hx
      rw [List.mem_cons] at hx
      rcases hx with rfl | hx
      · simpa using le_max_left x (rest.foldr max 0)
      · simp only [List.foldr_cons]
        exact le_trans (ih x hx) (le_max_right _ _)

theorem foldr_max_cases (xs : List Int) :
    xs.foldr max 0 = 0 ∨ xs.foldr max 0 ∈ xs := by
  induction xs with
  | nil => exact Or.inl rfl
  | cons a rest ih =>
      rcases le_total a (rest.foldr max 0) with h | h
      · rw [List.foldr_cons, max_eq_right h]
        rcases ih with h0 | hm
        · exact Or.inl h0
        · exact Or.inr (List.mem_cons_of_mem a hm)
      · rw [List.foldr_cons, max_eq_left h]
        exact Or.inr (List.mem_cons_self a rest)

/-- Concrete inputs and the handler's response on them, used by the C4
witness below. -/
def c4req : VerifyRequest := ⟨[0], ⟨2, 1, [1, 1]⟩, [⟨0, 0⟩], [⟨1, 0⟩]⟩

def c4exec : Except String SolverResult :=
  Except.ok ⟨some ⟨[⟨[⟨0, 0⟩, ⟨1, 0⟩]⟩]⟩, none, ⟨some 5, 7⟩⟩

def c4resp : VerifyResponse :=
  ⟨true, some ⟨[⟨[⟨0, 0⟩, ⟨1, 0⟩]⟩]⟩, [], ⟨some 5, 7, some 2, some 2⟩, none⟩

/-- C4: whenever the `verify` handler reaches the validation stage
(the executor produced a solution and no error), the response's
`valid` flag equals "the validator's error list is empty", and the
reported cost and makespan are present exactly on success: the cost is
the sum over agents of the path's step count, the makespan an upper
bound attained by some path (0 for an agentless plan); on a failed
validation both are absent. -/
theorem verify_cost_makespan (cfg : Config) (req : VerifyRequest)
    (exec : Except String SolverResult) (resp : VerifyResponse)
    (hok : verify cfg req exec = Except.ok resp)
    (herr : resp.error = none) :
    ∃ sol vres,
      resp.solution = some sol ∧
      Validation.validate_solution sol
        ⟨req.map.width, req.map.height, req.map.tiles⟩
        req.starts req.goals = some vres ∧
      resp.valid = vres.errors.isEmpty ∧
      resp.validation_errors = vres.errors ∧
      (resp.valid = true →
        resp.stats.cost =
          some ((sol.paths.map fun p => (p.steps.length : Int)).sum) ∧
        ∃ m, resp.stats.makespan = some m ∧
          (∀ p ∈ sol.paths, (p.steps.length : Int) ≤ m) ∧
          (m = 0 ∨ ∃ p ∈ sol.paths, m = (p.steps.length : Int))) ∧
      (resp.valid = false →
        resp.stats.cost = none ∧ resp.stats.makespan = none) := by
  simp only [verify] at hok
  by_cases hsz : req.wasm_bytes.length > cfg.max_wasm_size_mb * 1024 * 1024
  · simp only [if_pos hsz] at hok
    cases hok
  · simp only [if_neg hsz] at hok
    split at hok
    · cases hok
    · rename_i sr
      split at hok
      · cases hok
        cases herr
      · split at hok
        · cases hok
        · rename_i solution hsol
          split at hok
          · cases hok
          · rename_i vres hvres
            cases hok
            refine ⟨solution, vres, rfl, hvres,
              Validation.validate_solution_some_valid hvres, rfl, ?_, ?_⟩
            · intro hvalid
              have hv : vres.valid = true := hvalid
              rw [if_pos hv]
              constructor
              · rfl
              · refine ⟨_, rfl, ?_, ?_⟩
                · intro p hp
                  exact foldr_max_le _ _ (List.mem_map_of_mem _ hp)
                · rcases foldr_max_cases (solution.paths.map fun p =>
                    (p.steps.length : Int)) with h0 | hm
                  · exact Or.inl h0
                  · rw [List.mem_map] at hm
                    obtain ⟨p, hp, hpm⟩ := hm
                    exact Or.inr ⟨p, hp, hpm.symm⟩
            · intro hinvalid
              have hv : vres.valid = false := hinvalid
              have hcond : ¬(vres.valid = true) := by rw [hv]; simp
              rw [if_neg hcond]
              exact ⟨rfl, rfl⟩

/-- C4 witness: the theorem applied to a concrete run of the handler
on a valid one-agent plan. -/
theorem verify_cost_makespan_witness :
    ∃ sol vres,
      c4resp.solution = some sol ∧
      Validation.validate_solution sol
        ⟨c4req.map.width, c4req.map.height, c4req.map.tiles⟩
        c4req.starts c4req.goals = some vres ∧
      c4resp.valid = vres.errors.isEmpty ∧
      c4resp.validation_errors = vres.errors ∧
      (c4resp.valid = true →
        c4resp.stats.cost =
          some ((sol.paths.map fun p => (p.steps.length : Int)).sum) ∧
        ∃ m, c4resp.stats.makespan = some m ∧
          (∀ p ∈ sol.paths, (p.steps.length : Int) ≤ m) ∧
          (m = 0 ∨ ∃ p ∈ sol.paths, m = (p.steps.length : Int))) ∧
      (c4resp.valid = false →
        c4resp.stats.cost = none ∧ c4resp.stats.makespan = none) :=
  verify_cost_makespan ⟨1⟩ c4req c4exec c4resp rfl rfl

/-- C7 (code bug): the `verify` handler rejects an oversized module
with `BadRequest` no matter what the executor would do, but `submit`
performs no size check at all — on the same oversized module it runs
the executor and its outcome depends on the executor's result (two
different executor behaviours give two different successful responses,
neither a `BadRequest`). -/
theorem submit_size_check_missing :
    (∀ exec, verify ⟨0⟩ ⟨[0], ⟨1, 1, [1]⟩, [], []⟩ exec =
      Except.error AppError.BadRequest) ∧
    submit ⟨0⟩ ⟨"s", "m", "i", [0], ⟨1, 1, [1]⟩, [], []⟩
      (Except.ok ⟨none, some "boom", ⟨none, 0⟩⟩) =
      Except.ok ⟨false, none, none⟩ ∧
    submit ⟨0⟩ ⟨"s", "m", "i", [0], ⟨1, 1, [1]⟩, [], []⟩
      (Except.ok ⟨some ⟨[]⟩, none, ⟨none, 0⟩⟩) =
      Except.ok ⟨true, some 0, some 0⟩ :=
  ⟨fun _ => rfl, rfl, rfl⟩

end Api

namespace MapCore

/-- C8 counterexample: a well-sized byte vector containing the byte 2
does not round-trip — `from_bytes` maps any non-zero byte to
`Passable`, and `to_bytes` maps `Passable` back to 1. -/
theorem grid_bytes_roundtrip_cex :
    (GridMap.from_bytes 1 1 [2]).map GridMap.to_bytes = some [1] ∧
      some [1] ≠ some [2] := by
  constructor
  · rfl
  · decide

/-- C8 (amended): `to_bytes ∘ from_bytes` is the identity on well-sized
inputs whose bytes are all 0 or 1 (and whose area does not overflow the
source's `u32` multiplication); `from_bytes` succeeds on every
well-sized input in that regime. -/
theorem grid_bytes_roundtrip_amended (width height : Nat) (data : List Nat)
    (hlen : data.length = width * height)
    (hwh : width * height < 4294967296)
    (hbits : ∀ b ∈ data, b = 0 ∨ b = 1) :
    ∃ g, GridMap.from_bytes width height data = some g ∧ g.to_bytes = data := by
  unfold GridMap.from_bytes
  rw [if_neg (by rw [hlen, Nat.mod_eq_of_lt hwh]; exact fun h => h rfl)]
  refine ⟨_, rfl, ?_⟩
  unfold GridMap.to_bytes
  simp only [List.map_map]
  rw [show data.map ((fun t => match t with
      | Tile.Passable => 1
      | Tile.Blocked => 0) ∘ fun b => if b ≠ 0 then Tile.Passable else Tile.Blocked) =
      data.map id from List.map_congr_left fun b hb => by
        rcases hbits b hb with rfl | rfl <;> rfl]
  exact List.map_id data

/-- C8 witness: the amended round trip on a concrete 1×1 grid. -/
theorem grid_bytes_roundtrip_amended_witness :
    ∃ g, GridMap.from_bytes 1 1 [1] = some g ∧ g.to_bytes = [1] :=
  grid_bytes_roundtrip_amended 1 1 [1] (by decide) (by decide) (by decide)

/-- Whether a scenario row is accepted by the entry loop: blank, or at
least nine tab-separated columns whose seven `u32` fields and one `f64`
field parse (`map_name`, column 1, is taken verbatim). -/
def RowGood (row : String) : Prop :=
  (trimChars row.data).isEmpty = true ∨
    (9 ≤ (splitOnChar '\t' (trimChars row.data)).length ∧
      (rust_parse_u32 ((splitOnChar '\t' (trimChars row.data)).getD 0 [])).isSome = true ∧
      (rust_parse_u32 ((splitOnChar '\t' (trimChars row.data)).getD 2 [])).isSome = true ∧
      (rust_parse_u32 ((splitOnChar '\t' (trimChars row.data)).getD 3 [])).isSome = true ∧
      (rust_parse_u32 ((splitOnChar '\t' (trimChars row.data)).getD 4 [])).isSome = true ∧
      (rust_parse_u32 ((splitOnChar '\t' (trimChars row.data)).getD 5 [])).isSome = true ∧
      (rust_parse_u32 ((splitOnChar '\t' (trimChars row.data)).getD 6 [])).isSome = true ∧
      (rust_parse_u32 ((splitOnChar '\t' (trimChars row.data)).getD 7 [])).isSome = true ∧
      rust_parse_f64_ok ((splitOnChar '\t' (trimChars row.data)).getD 8 []) = true)

instance (row : String) : Decidable (RowGood row) := by
  unfold RowGood
  infer_instance

theorem scanEntries_ok_of_good :
    ∀ (rows : List String) (idx : Nat),
      (∀ r ∈ rows, RowGood r) →
      ∃ es, scanEntries idx rows = Except.ok es
  | [], _, _ => ⟨[], rfl⟩
  | row :: rest, idx, hgood => by
      have hrow := hgood row (List.mem_cons_self row rest)
      have ihgood : ∀ r ∈ rest, RowGood r :=
        fun r hr => hgood r (List.mem_cons_of_mem row hr)
      obtain ⟨es, hes⟩ := scanEntries_ok_of_good rest (idx + 1) ihgood
      by_cases hemp : (trimChars row.data).isEmpty
      · exact ⟨es, by simp only [scanEntries, hemp, if_true, hes]⟩
      · rcases hrow with he | ⟨h9, h0, h2, h3, h4, h5, h6, h7, hf⟩
        · exact absurd he hemp
        rw [Option.isSome_iff_exists] at h0 h2 h3 h4 h5 h6 h7
        obtain ⟨b0, hb0⟩ := h0
        obtain ⟨b2, hb2⟩ := h2
        obtain ⟨b3, hb3⟩ := h3
        obtain ⟨b4, hb4⟩ := h4
        obtain ⟨b5, hb5⟩ := h5
        obtain ⟨b6, hb6⟩ := h6
        obtain ⟨b7, hb7⟩ := h7
        refine ⟨⟨b0, String.mk ((splitOnChar '\t' (trimChars row.data)).getD 1 []),
          b2, b3, b4, b5, b6, b7,
          String.mk ((splitOnChar '\t' (trimChars row.data)).getD 8 [])⟩ :: es, ?_⟩
        simp only [scanEntries, hemp, Bool.false_eq_true, if_false,
          if_neg (by omega : ¬(splitOnChar '\t' (trimChars row.data)).length < 9),
          hb0, hb2, hb3, hb4, hb5, hb6, hb7, hf, if_true, hes, Except.map]

theorem scanEntries_good_of_ok :
    ∀ (rows : List String) (idx : Nat) (es : List ScenarioEntry),
      scanEntries idx rows = Except.ok es →
      ∀ r ∈ rows, RowGood r
  | [], _, _, _, r, hr => absurd hr (List.not_mem_nil r)
  | row :: rest, idx, es, hok, r, hr => by
      by_cases hemp : (trimChars row.data).isEmpty
      · rw [scanEntries, if_pos hemp] at hok
        rw [List.mem_cons] at hr
        rcases hr with heq | hr
        · subst heq
          exact Or.inl hemp
        · exact scanEntries_good_of_ok rest (idx + 1) es hok r hr
      · rw [scanEntries, if_neg hemp] at hok
        by_cases h9 : (splitOnChar '\t' (trimChars row.data)).length < 9
        · rw [if_pos h9] at hok
          cases hok
        · rw [if_neg h9] at hok
          rcases hb0 : rust_parse_u32 ((splitOnChar '\t' (trimChars row.data)).getD 0 []) with _ | b0 <;>
            simp only [hb0] at hok
          · cases hok
          rcases hb2 : rust_parse_u32 ((splitOnChar '\t' (trimChars row.data)).getD 2 []) with _ | b2 <;>
            simp only [hb2] at hok
          · cases hok
          rcases hb3 : rust_parse_u32 ((splitOnChar '\t' (trimChars row.data)).getD 3 []) with _ | b3 <;>
            simp only [hb3] at hok
          · cases hok
          rcases hb4 : rust_parse_u32 ((splitOnChar '\t' (trimChars row.data)).getD 4 []) with _ | b4 <;>
            simp only [hb4] at hok
          · cases hok
          rcases hb5 : rust_parse_u32 ((splitOnChar '\t' (trimChars row.data)).getD 5 []) with _ | b5 <;>
            simp only [hb5] at hok
          · cases hok
          rcases hb6 : rust_parse_u32 ((splitOnChar '\t' (trimChars row.data)).getD 6 []) with _ | b6 <;>
            simp only [hb6] at hok
          · cases hok
          rcases hb7 : rust_parse_u32 ((splitOnChar '\t' (trimChars row.data)).getD 7 []) with _ | b7 <;>
            simp only [hb7] at hok
          · cases hok
          by_cases hf : rust_parse_f64_ok ((splitOnChar '\t' (trimChars row.data)).getD 8 [])
          · rw [if_pos hf] at hok
            rw [List.mem_cons] at hr
            rcases hr with heq | hr
            · subst heq
              exact Or.inr ⟨by omega, by rw [hb0]; rfl, by rw [hb2]; rfl,
                by rw [hb3]; rfl, by rw [hb4]; rfl, by rw [hb5]; rfl,
                by rw [hb6]; rfl, by rw [hb7]; rfl, hf⟩
            · rcases hrest : scanEntries (idx + 1) rest with e | es2
              · simp only [hrest, Except.map] at hok
                cases hok
              · exact scanEntries_good_of_ok rest (idx + 1) es2 hrest r hr
          · rw [if_neg hf] at hok
            cases hok

theorem scanEntries_error_good :
    ∀ (rows : List String) (idx : Nat) (e : ScenarioError),
      scanEntries idx rows = Except.error e →
      ∃ k r, rows.get? k = some r ∧ ¬RowGood r ∧
        e = ScenarioError.MalformedEntry (idx + k + 1)
  | [], _, _, h => by cases h
  | row :: rest, idx, e, hok => by
      by_cases hemp : (trimChars row.data).isEmpty
      · rw [scanEntries, if_pos hemp] at hok
        obtain ⟨k, r, hk, hbad, he⟩ := scanEntries_error_good rest (idx + 1) e hok
        exact ⟨k + 1, r, by simpa using hk, hbad,
          by rw [he]; congr 1; omega⟩
      · rw [scanEntries, if_neg hemp] at hok
        by_cases h9 : (splitOnChar '\t' (trimChars row.data)).length < 9
        · rw [if_pos h9] at hok
          refine ⟨0, row, rfl, ?_, by cases hok; congr 1⟩
          rintro (he | ⟨h9c, _⟩)
          · exact hemp he
          · omega
        · rw [if_neg h9] at hok
          rcases hb0 : rust_parse_u32 ((splitOnChar '\t' (trimChars row.data)).getD 0 []) with _ | b0 <;>
            simp only [hb0] at hok
          · refine ⟨0, row, rfl, ?_, by cases hok; congr 1⟩
            rintro (he | ⟨_, hc, _⟩)
            · exact hemp he
            · rw [hb0] at hc
              cases hc
          rcases hb2 : rust_parse_u32 ((splitOnChar '\t' (trimChars row.data)).getD 2 []) with _ | b2 <;>
            simp only [hb2] at hok
          · refine ⟨0, row, rfl, ?_, by cases hok; congr 1⟩
            rintro (he | ⟨_, _, hc, _⟩)
            · exact hemp he
            · rw [hb2] at hc
              cases hc
          rcases hb3 : rust_parse_u32 ((splitOnChar '\t' (trimChars row.data)).getD 3 []) with _ | b3 <;>
            simp only [hb3] at hok
          · refine ⟨0, row, rfl, ?_, by cases hok; congr 1⟩
            rintro (he | ⟨_, _, _, hc, _⟩)
            · exact hemp he
            · rw [hb3] at hc
              cases hc
          rcases hb4 : rust_parse_u32 ((splitOnChar '\t' (trimChars row.data)).getD 4 []) with _ | b4 <;>
            simp only [hb4] at hok
          · refine ⟨0, row, rfl, ?_, by cases hok; congr 1⟩
            rintro (he | ⟨_, _, _, _, hc, _⟩)
            · exact hemp he
            · rw [hb4] at hc
              cases hc
          rcases hb5 : rust_parse_u32 ((splitOnChar '\t' (trimChars row.data)).getD 5 []) with _ | b5 <;>
            simp only [hb5] at hok
          · refine ⟨0, row, rfl, ?_, by cases hok; congr 1⟩
            rintro (he | ⟨_, _, _, _, _, hc, _⟩)
            · exact hemp he
            · rw [hb5] at hc
              cases hc
          rcases hb6 : rust_parse_u32 ((splitOnChar '\t' (trimChars row.data)).getD 6 []) with _ | b6 <;>
            simp only [hb6] at hok
          · refine ⟨0, row, rfl, ?_, by cases hok; congr 1⟩
            rintro (he | ⟨_, _, _, _, _, _, hc, _⟩)
            · exact hemp he
            · rw [hb6] at hc
              cases hc
          rcases hb7 : rust_parse_u32 ((splitOnChar '\t' (trimChars row.data)).getD 7 []) with _ | b7 <;>
            simp only [hb7] at hok
          · refine ⟨0, row, rfl, ?_, by cases hok; congr 1⟩
            rintro (he | ⟨_, _, _, _, _, _, _, hc, _⟩)
            · exact hemp he
            · rw [hb7] at hc
              cases hc
          by_cases hf : rust_parse_f64_ok ((splitOnChar '\t' (trimChars row.data)).getD 8 [])
          · rw [if_pos hf] at hok
            rcases hrest : scanEntries (idx + 1) rest with e2 | es2
            · simp only [hrest, Except.map] at hok
              obtain ⟨k, r, hk, hbad, he⟩ :=
                scanEntries_error_good rest (idx + 1) e2 hrest
              cases hok
              exact ⟨k + 1, r, by simpa using hk, hbad,
                by rw [he]; congr 1; omega⟩
            · simp only [hrest, Except.map] at hok
              cases hok
          · rw [if_neg hf] at hok
            refine ⟨0, row, rfl, ?_, by cases hok; congr 1⟩
            rintro (he | ⟨_, _, _, _, _, _, _, _, hc⟩)
            · exact hemp he
            · exact absurd hc (by rw [Bool.not_eq_true] at hf; rw [hf]; decide)

/-- C9 counterexample: a non-blank row with ten tab-separated columns
(nine well-formed fields plus an extra column) is accepted by
`Scenario::parse`, not rejected with `MalformedEntry` — the source only
rejects rows with *fewer* than nine columns. -/
theorem scenario_parse_ten_columns_cex :
    Scenario.parse ["version 1", "0\tm\t1\t1\t0\t0\t0\t0\t1\textra"] =
      Except.ok ⟨1, [⟨0, "m", 1, 1, 0, 0, 0, 0, "1"⟩]⟩ ∧
    (splitOnChar '\t' (trimChars "0\tm\t1\t1\t0\t0\t0\t0\t1\textra".data)).length ≠ 9 := by
  constructor
  · rfl
  · decide

/-- C9 (amended): after the version line, the entry loop accepts
exactly the inputs whose non-blank rows have **at least** nine
tab-separated columns with parsing numeric fields (columns 0, 2–7 as
`u32`, column 8 as `f64`; further columns are ignored), and any failure
is a `MalformedEntry` carrying the 1-based number of an offending line;
blank lines are skipped. -/
theorem scenario_parse_row_shape_amended (idx : Nat) (rows : List String) :
    ((∀ r ∈ rows, RowGood r) → ∃ es, scanEntries idx rows = Except.ok es) ∧
    (∀ es, scanEntries idx rows = Except.ok es → ∀ r ∈ rows, RowGood r) ∧
    (∀ e, scanEntries idx rows = Except.error e →
      ∃ k r, rows.get? k = some r ∧ ¬RowGood r ∧
        e = ScenarioError.MalformedEntry (idx + k + 1)) :=
  ⟨scanEntries_ok_of_good rows idx,
    fun es h => scanEntries_good_of_ok rows idx es h,
    fun e h => scanEntries_error_good rows idx e h⟩

/-- C9 witness: the amended theorem applied to a concrete well-formed
row. -/
theorem scenario_parse_row_shape_amended_witness :
    ∃ es, scanEntries 1 ["0\tm\t8\t8\t1\t2\t3\t4\t5.5"] = Except.ok es :=
  (scenario_parse_row_shape_amended 1 ["0\tm\t8\t8\t1\t2\t3\t4\t5.5"]).1
    (by decide)

end MapCore

/-! ## Helper lemmas about the joint-state A* solver -/

namespace Astar

theorem popMin_mem :
    ∀ (l : List GlobalState) (s : GlobalState) (rest : List GlobalState),
      popMin l = some (s, rest) → s ∈ l ∧ ∀ x ∈ rest, x ∈ l
  | [], _, _, h => by cases h
  | a :: l, s, rest, h => by
      rw [popMin] at h
      rcases hrec : popMin l with _ | mr <;> simp only [hrec] at h
      · cases h
        exact ⟨List.mem_cons_self a l, by simp⟩
      · obtain ⟨m, rest'⟩ := mr
        obtain ⟨hm, hrest'⟩ := popMin_mem l m rest' hrec
        by_cases hc : a.f_cost ≤ m.f_cost
        · rw [if_pos hc] at h
          cases h
          exact ⟨List.mem_cons_self a l,
            fun x hx => List.mem_cons_of_mem a hx⟩
        · rw [if_neg hc] at h
          cases h
          refine ⟨List.mem_cons_of_mem a hm, fun x hx => ?_⟩
          rw [List.mem_cons] at hx
          rcases hx with rfl | hx
          · exact List.mem_cons_self x l
          · exact List.mem_cons_of_mem a (hrest' x hx)

theorem jointMoves_mem :
    ∀ (ls : List (List Coordinate)) (np : List Coordinate),
      np ∈ jointMoves ls ↔ List.Forall₂ (fun c ms => c ∈ ms) np ls
  | [], np => by
      simp [jointMoves, List.forall₂_nil_right_iff]
  | ms :: rest, np => by
      simp only [jointMoves, List.mem_flatMap, List.mem_map]
      constructor
      · rintro ⟨m, hm, tl, htl, rfl⟩
        exact List.Forall₂.cons hm ((jointMoves_mem rest tl).mp htl)
      · intro h
        cases h with
        | cons hm htl =>
            exact ⟨_, hm, _, (jointMoves_mem rest _).mpr htl, rfl⟩

theorem allDistinct_iff :
    ∀ (l : List Coordinate), allDistinct l = true ↔ l.Pairwise (· ≠ ·)
  | [] => by simp [allDistinct]
  | c :: rest => by
      simp only [allDistinct, Bool.and_eq_true, Bool.not_eq_true',
        List.pairwise_cons]
      rw [allDistinct_iff rest]
      constructor
      · rintro ⟨hc, hrest⟩
        refine ⟨fun a ha hca => ?_, hrest⟩
        rw [← List.elem_iff] at ha
        rw [hca] at hc
        rw [List.contains] at hc
        rw [hc] at ha
        cases ha
      · rintro ⟨hc, hrest⟩
        refine ⟨?_, hrest⟩
        by_cases hmem : c ∈ rest
        · exact absurd rfl (hc c hmem)
        · rw [← Bool.not_eq_true]
          intro hcon
          rw [List.contains, List.elem_iff] at hcon
          exact hmem hcon

theorem hasEdgeConflict_false_iff :
    ∀ (cur next : List Coordinate),
      hasEdgeConflict cur next = false ↔
        (cur.zip next).Pairwise fun x y => ¬(x.1 = y.2 ∧ y.1 = x.2)
  | [], next => by
      rw [show hasEdgeConflict [] next = false from rfl]
      simp
  | a :: cs, [] => by
      rw [show hasEdgeConflict (a :: cs) [] = false from rfl]
      simp
  | a :: cs, b :: ns => by
      simp only [hasEdgeConflict, Bool.or_eq_false_iff, List.any_eq_false,
        List.zip_cons_cons, List.pairwise_cons, Bool.and_eq_true, beq_iff_eq]
      rw [hasEdgeConflict_false_iff cs ns]

theorem neighbors_grid_passable {c c' : Coordinate} {k : Nat} {grid : Grid}
    (h : (c', k) ∈ neighbors_grid c grid) :
    grid.is_passable c'.x c'.y = true := by
  unfold neighbors_grid at h
  rw [List.mem_filterMap] at h
  obtain ⟨dxy, _, heq⟩ := h
  simp only at heq
  split at heq
  · split at heq
    · cases heq
      assumption
    · cases heq
  · cases heq

theorem wrap_i32_top : wrap_i32 2147483648 = -2147483648 := by decide

/-- In the regime where the casts are exact, an accepted neighbour is
exactly one cardinal step away and in bounds. -/
theorem neighbors_grid_delta {c c' : Coordinate} {k : Nat} {grid : Grid}
    (h : (c', k) ∈ neighbors_grid c grid)
    (hx : c.x < 2147483648) (hy : c.y < 2147483648)
    (hw : grid.width < 2147483648) (hh : grid.height < 2147483648) :
    ((c'.x : Int) - (c.x : Int)).natAbs +
      ((c'.y : Int) - (c.y : Int)).natAbs = 1 ∧
    c'.x < grid.width ∧ c'.y < grid.height := by
  unfold neighbors_grid at h
  rw [List.mem_filterMap] at h
  obtain ⟨dxy, hdm, heq⟩ := h
  simp only at heq
  rw [u32_as_i32_of_lt hx, u32_as_i32_of_lt hy, u32_as_i32_of_lt hw,
    u32_as_i32_of_lt hh] at heq
  have hdxy : (dxy.1 = 0 ∧ dxy.2 = -1) ∨ (dxy.1 = 0 ∧ dxy.2 = 1) ∨
      (dxy.1 = -1 ∧ dxy.2 = 0) ∨ (dxy.1 = 1 ∧ dxy.2 = 0) := by
    simp only [cardinals, List.mem_cons, List.not_mem_nil, or_false] at hdm
    rcases hdm with h | h | h | h <;> rw [h] <;> simp
  have hwx : wrap_i32 ((c.x : Int) + dxy.1) = (c.x : Int) + dxy.1 ∨
      ((c.x : Int) + dxy.1 = 2147483648 ∧
        wrap_i32 ((c.x : Int) + dxy.1) = -2147483648) := by
    by_cases hb : (c.x : Int) + dxy.1 < 2147483648
    · exact Or.inl (wrap_i32_eq_self (by rcases hdxy with ⟨h1, _⟩ | ⟨h1, _⟩ |
        ⟨h1, _⟩ | ⟨h1, _⟩ <;> rw [h1] <;> omega) hb)
    · right
      have : (c.x : Int) + dxy.1 = 2147483648 := by
        rcases hdxy with ⟨h1, _⟩ | ⟨h1, _⟩ | ⟨h1, _⟩ | ⟨h1, _⟩ <;>
          rw [h1] at hb ⊢ <;> omega
      rw [this]
      exact ⟨rfl, wrap_i32_top⟩
  have hwy : wrap_i32 ((c.y : Int) + dxy.2) = (c.y : Int) + dxy.2 ∨
      ((c.y : Int) + dxy.2 = 2147483648 ∧
        wrap_i32 ((c.y : Int) + dxy.2) = -2147483648) := by
    by_cases hb : (c.y : Int) + dxy.2 < 2147483648
    · exact Or.inl (wrap_i32_eq_self (by rcases hdxy with ⟨_, h2⟩ | ⟨_, h2⟩ |
        ⟨_, h2⟩ | ⟨_, h2⟩ <;> rw [h2] <;> omega) hb)
    · right
      have : (c.y : Int) + dxy.2 = 2147483648 := by
        rcases hdxy with ⟨_, h2⟩ | ⟨_, h2⟩ | ⟨_, h2⟩ | ⟨_, h2⟩ <;>
          rw [h2] at hb ⊢ <;> omega
      rw [this]
      exact ⟨rfl, wrap_i32_top⟩
  split at heq
  · rename_i hcond
    split at heq
    · cases heq
      obtain ⟨hx0, hxw, hy0, hyh⟩ := hcond
      have hnx : wrap_i32 ((c.x : Int) + dxy.1) = (c.x : Int) + dxy.1 := by
        rcases hwx with h | ⟨_, hward⟩
        · exact h
        · rw [hward] at hx0
          omega
      have hny : wrap_i32 ((c.y : Int) + dxy.2) = (c.y : Int) + dxy.2 := by
        rcases hwy with h | ⟨_, hward⟩
        · exact h
        · rw [hward] at hy0
          omega
      rw [hnx] at hx0 hxw
      rw [hny] at hy0 hyh
      constructor
      · simp only [hnx, hny]
        rw [Int.toNat_of_nonneg hx0, Int.toNat_of_nonneg hy0]
        rcases hdxy with ⟨h1, h2⟩ | ⟨h1, h2⟩ | ⟨h1, h2⟩ | ⟨h1, h2⟩ <;>
          rw [h1, h2] <;> simp <;> omega
      · constructor
        · simp only [hnx]
          omega
        · simp only [hny]
          omega
    · cases heq
  · cases heq

theorem expandStates_mem :
    ∀ (jms : List (List Coordinate)) (state : GlobalState)
      (visited : List (List Coordinate × Nat)) (ns : GlobalState),
      ns ∈ (expandStates state visited jms).1 →
      ∃ np ∈ jms, ns = mkNext state np ∧ allDistinct np = true ∧
        hasEdgeConflict state.positions np = false
  | [], _, _, _, h => absurd h (List.not_mem_nil _)
  | np :: rest, state, visited, ns, h => by
      rw [expandStates] at h
      by_cases hc : (allDistinct np && !hasEdgeConflict state.positions np &&
          !visited.contains (np, state.timestep + 1)) = true
      · rw [if_pos hc] at h
        simp only [List.mem_cons] at h
        simp only [Bool.and_eq_true, Bool.not_eq_true'] at hc
        rcases h with rfl | h
        · exact ⟨np, List.mem_cons_self np rest, rfl, hc.1.1, hc.1.2⟩
        · obtain ⟨np', hnp', hns, hd, he⟩ := expandStates_mem rest state
            ((np, state.timestep + 1) :: visited) ns h
          exact ⟨np', List.mem_cons_of_mem np hnp', hns, hd, he⟩
      · rw [if_neg hc] at h
        obtain ⟨np', hnp', hns, hd, he⟩ :=
          expandStates_mem rest state visited ns h
        exact ⟨np', List.mem_cons_of_mem np hnp', hns, hd, he⟩

/-- Soundness skeleton of `searchLoop`: any state predicate that is
preserved by accepted expansions and holds on the open set holds, at
return, for the goal state whose paths form the returned plan. -/
theorem searchLoop_inv (grid : Grid) (P : GlobalState → Prop)
    (hstep : ∀ s np, P s → np ∈ jointMoves (movesPerAgent grid s.positions) →
      allDistinct np = true → hasEdgeConflict s.positions np = false →
      P (mkNext s np)) :
    ∀ (fuel : Nat) (openSet : List GlobalState)
      (visited : List (List Coordinate × Nat)) (plan : List Path),
      (∀ s ∈ openSet, P s) →
      searchLoop grid fuel openSet visited = some plan →
      ∃ s, P s ∧ atGoals s.positions s.goals = true ∧
        plan = s.paths.map fun steps => ⟨steps⟩
  | 0, _, _, _, _, h => by cases h
  | fuel + 1, openSet, visited, plan, hP, hrun => by
      rw [searchLoop] at hrun
      rcases hpop : popMin openSet with _ | sr <;> simp only [hpop] at hrun
      · cases hrun
      · obtain ⟨state, rest⟩ := sr
        obtain ⟨hmem, hrest⟩ := popMin_mem openSet state rest hpop
        by_cases hgoal : atGoals state.positions state.goals
        · rw [if_pos hgoal] at hrun
          exact ⟨state, hP state hmem, hgoal, (Option.some.inj hrun).symm⟩
        · rw [if_neg hgoal] at hrun
          refine searchLoop_inv grid P hstep fuel _ _ plan ?_ hrun
          intro s hs
          rw [List.mem_append] at hs
          rcases hs with hs | hs
          · exact hP s (hrest s hs)
          · obtain ⟨np, hnp, rfl, hd, he⟩ := expandStates_mem _ state visited s hs
            exact hstep state np (hP state hmem) hnp hd he

theorem forall₂_getD {α β : Type} {R : α → β → Prop} {l1 : List α} {l2 : List β}
    (h : List.Forall₂ R l1 l2) {i : Nat} (hi : i < l1.length) (d1 : α) (d2 : β) :
    R (l1.getD i d1) (l2.getD i d2) := by
  rw [List.forall₂_iff_get] at h
  obtain ⟨hlen, hget⟩ := h
  rw [Validation.getD_eq_get hi d1, Validation.getD_eq_get (by omega) d2]
  exact hget i hi (by omega)

theorem getD_map_lt {α β : Type} (f : α → β) {l : List α} {i : Nat}
    (hi : i < l.length) (da : α) (db : β) :
    (l.map f).getD i db = f (l.getD i da) := by
  rw [Validation.getD_eq_get (by simpa using hi) db,
    Validation.getD_eq_get hi da]
  simp

/-- The structural invariant of the joint-state search: goals are
fixed; positions, paths, starts all have equal length; each path has
one coordinate per elapsed timestep; each path starts at the agent's
start and ends at the agent's current position. -/
def InvA (starts goals : List Coordinate) (s : GlobalState) : Prop :=
  s.goals = goals ∧
  s.positions.length = starts.length ∧
  s.paths.length = starts.length ∧
  (∀ p ∈ s.paths, p.length = s.timestep + 1) ∧
  List.Forall₂ (fun p c => p.head? = some c) s.paths starts ∧
  List.Forall₂ (fun p c => p.getLast? = some c) s.paths s.positions

theorem forall₂_snoc_left {R : List Coordinate → Coordinate → Prop} :
    ∀ (ps : List (List Coordinate)) (ss : List Coordinate)
      (np : List Coordinate),
      List.Forall₂ R ps ss → ps.length = np.length →
      (∀ p c n, R p c → R (p ++ [n]) c) →
      List.Forall₂ R ((ps.zip np).map fun pc => pc.1 ++ [pc.2]) ss := by
  intro ps ss np h
  induction h generalizing np with
  | nil =>
      intro _ _
      simp
  | @cons p c ps' ss' hR hF ih =>
      intro hlen hclose
      rcases np with _ | ⟨n, np'⟩
      · simp at hlen
      · simp only [List.zip_cons_cons, List.map_cons]
        exact List.Forall₂.cons (hclose p c n hR)
          (ih np' (by simpa using hlen) hclose)

theorem forall₂_snoc_last :
    ∀ (ps : List (List Coordinate)) (np : List Coordinate),
      ps.length = np.length →
      List.Forall₂ (fun p c => p.getLast? = some c)
        ((ps.zip np).map fun pc => pc.1 ++ [pc.2]) np
  | [], [], _ => by simp
  | [], _ :: _, h => by simp at h
  | _ :: _, [], h => by simp at h
  | p :: ps', n :: np', h => by
      simp only [List.zip_cons_cons, List.map_cons]
      exact List.Forall₂.cons (@List.getLast?_concat _ n p)
        (forall₂_snoc_last ps' np' (by simpa using h))

theorem invA_mkNext {grid : Grid} {starts goals : List Coordinate}
    {s : GlobalState} {np : List Coordinate}
    (hinv : InvA starts goals s)
    (hnp : np ∈ jointMoves (movesPerAgent grid s.positions)) :
    InvA starts goals (mkNext s np) := by
  obtain ⟨hg, hposlen, hpathlen, hlens, hheads, hlasts⟩ := hinv
  have hnplen : np.length = s.positions.length := by
    have := ((jointMoves_mem _ np).mp hnp).length_eq
    simpa [movesPerAgent] using this
  have hziplen : s.paths.length = np.length := by omega
  refine ⟨hg, by simpa [mkNext] using hnplen.trans hposlen, ?_, ?_, ?_, ?_⟩
  · simp only [mkNext, List.length_map, List.length_zip]
    omega
  · intro p hp
    simp only [mkNext, List.mem_map] at hp
    obtain ⟨pc, hpc, rfl⟩ := hp
    have hmem := List.mem_zip hpc
    simp only [List.length_append, List.length_cons, List.length_nil]
    rw [hlens pc.1 hmem.1]
    rfl
  · exact forall₂_snoc_left s.paths starts np hheads hziplen
      (fun p c n hR => by
        rcases p with _ | ⟨a, p'⟩
        · cases hR
        · simpa using hR)
  · exact forall₂_snoc_last s.paths np hziplen

theorem invA_init (grid : Grid) (agents : List ((Nat × Nat) × (Nat × Nat))) :
    InvA (agents.map fun a => Coordinate.mk a.1.1 a.1.2)
      (agents.map fun a => Coordinate.mk a.2.1 a.2.2)
      ⟨agents.map fun a => Coordinate.mk a.1.1 a.1.2,
        (agents.map fun a => Coordinate.mk a.1.1 a.1.2).map fun p => [p],
        0, 0, agents.map fun a => Coordinate.mk a.2.1 a.2.2⟩ := by
  refine ⟨rfl, rfl, by simp, ?_, ?_, ?_⟩
  · intro p hp
    simp only [List.mem_map] at hp
    obtain ⟨c, _, rfl⟩ := hp
    rfl
  · rw [List.forall₂_map_left_iff, List.forall₂_same]
    intro c _
    rfl
  · rw [List.forall₂_map_left_iff, List.forall₂_same]
    intro c _
    rfl

theorem atGoals_eq {positions goals : List Coordinate}
    (h : atGoals positions goals = true)
    (hlen : positions.length = goals.length) : positions = goals := by
  unfold atGoals at h
  rw [List.all_eq_true] at h
  apply List.ext_get hlen
  intro i h1 h2
  have hm : (positions.get ⟨i, h1⟩, goals.get ⟨i, h2⟩) ∈ positions.zip goals := by
    rw [List.mem_iff_get]
    refine ⟨⟨i, by simp [List.length_zip]; omega⟩, ?_⟩
    simp [List.get_zip]
  have := h _ hm
  simpa using this

/-- C10: every plan the centralized joint-state solver returns has one
path per agent, all paths of one common length (one coordinate per
elapsed timestep), and path `i` starting at agent `i`'s start
coordinate. -/
theorem solver_plan_shape (fuel : Nat) (grid : Grid)
    (agents : List ((Nat × Nat) × (Nat × Nat))) (plan : List Path)
    (h : solve_mapf_centralized_grid fuel grid agents = some plan) :
    plan.length = agents.length ∧
    (∃ T, ∀ p ∈ plan, p.steps.length = T) ∧
    (∀ i < agents.length, (plan.getD i ⟨[]⟩).steps.head? =
      some ⟨(agents.getD i ((0, 0), (0, 0))).1.1,
        (agents.getD i ((0, 0), (0, 0))).1.2⟩) := by
  unfold solve_mapf_centralized_grid at h
  obtain ⟨s, hinv, hgoal, rfl⟩ := searchLoop_inv grid
    (InvA (agents.map fun a => Coordinate.mk a.1.1 a.1.2)
      (agents.map fun a => Coordinate.mk a.2.1 a.2.2))
    (fun s np hP hnp _ _ => invA_mkNext hP hnp)
    fuel _ _ _
    (by
      intro s hs
      simp only [List.mem_singleton] at hs
      subst hs
      exact invA_init grid agents)
    h
  obtain ⟨hg, hposlen, hpathlen, hlens, hheads, hlasts⟩ := hinv
  refine ⟨by simpa using hpathlen, ⟨s.timestep + 1, ?_⟩, ?_⟩
  · intro p hp
    simp only [List.mem_map] at hp
    obtain ⟨steps, hsteps, rfl⟩ := hp
    exact hlens steps hsteps
  · intro i hi
    have hi' : i < s.paths.length := by
      rw [hpathlen]
      simpa using hi
    rw [getD_map_lt (fun steps => Path.mk steps) hi' [] ⟨[]⟩]
    have := forall₂_getD hheads hi' []
      (Coordinate.mk (agents.getD i ((0, 0), (0, 0))).1.1
        (agents.getD i ((0, 0), (0, 0))).1.2)
    rw [getD_map_lt (fun a => Coordinate.mk a.1.1 a.1.2) hi ((0, 0), (0, 0))] at this
    exact this

/-- C10 witness: a concrete solved instance (one agent crossing a 2×1
corridor). -/
theorem solver_plan_shape_witness :
    [Path.mk [⟨0, 0⟩, ⟨1, 0⟩]].length = [(((0 : Nat), (0 : Nat)),
      ((1 : Nat), (0 : Nat)))].length ∧
    (∃ T, ∀ p ∈ [Path.mk [⟨0, 0⟩, ⟨1, 0⟩]], p.steps.length = T) ∧
    (∀ i < [(((0 : Nat), (0 : Nat)), ((1 : Nat), (0 : Nat)))].length,
      (([Path.mk [⟨0, 0⟩, ⟨1, 0⟩]].getD i ⟨[]⟩)).steps.head? =
      some ⟨(([(((0 : Nat), (0 : Nat)), ((1 : Nat), (0 : Nat)))].getD i
        ((0, 0), (0, 0))).1.1),
        (([(((0 : Nat), (0 : Nat)), ((1 : Nat), (0 : Nat)))].getD i
        ((0, 0), (0, 0))).1.2)⟩) :=
  solver_plan_shape 5 ⟨[1, 1], 2, 1⟩ [((0, 0), (1, 0))]
    [Path.mk [⟨0, 0⟩, ⟨1, 0⟩]] (by decide)

/-- A feasible joint transition of the centralized search, built from
the source's own predicates: a joint move from the per-agent move
lists (cardinal neighbours plus wait) passing the vertex- and
edge-conflict filters. -/
def FeasibleStep (grid : Grid) (cur next : List Coordinate) : Prop :=
  next ∈ jointMoves (movesPerAgent grid cur) ∧
  allDistinct next = true ∧
  hasEdgeConflict cur next = false

/-- `ReachesGoalIn grid goals k cur`: some sequence of exactly `k`
feasible joint transitions (each of `g`-cost 1, wait included) leads
from `cur` to a state where `atGoals` holds. -/
def ReachesGoalIn (grid : Grid) (goals : List Coordinate) :
    Nat → List Coordinate → Prop
  | 0, cur => atGoals cur goals = true
  | k + 1, cur => ∃ next, FeasibleStep grid cur next ∧
      ReachesGoalIn grid goals k next

theorem forall₂_mem_left {α β : Type} {R : α → β → Prop} :
    ∀ {l1 : List α} {l2 : List β}, List.Forall₂ R l1 l2 →
      ∀ a ∈ l1, ∃ b ∈ l2, R a b := by
  intro l1 l2 h
  induction h with
  | nil =>
      intro a ha
      cases ha
  | cons hR _ ih =>
      intro a ha
      rw [List.mem_cons] at ha
      rcases ha with rfl | ha
      · exact ⟨_, List.mem_cons_self _ _, hR⟩
      · obtain ⟨b, hb, hRb⟩ := ih a ha
        exact ⟨b, List.mem_cons_of_mem _ hb, hRb⟩

theorem is_passable_lt {g : Grid} {x y : Nat} (h : g.is_passable x y = true) :
    x < g.width ∧ y < g.height := by
  unfold Grid.is_passable at h
  split at h
  · cases h
  · rename_i hc
    simp only [Bool.or_eq_true, decide_eq_true_eq, not_or] at hc
    omega

/-- Coordinates below `2^31` stay below `2^31` across one feasible
joint transition (a neighbour is in bounds, a wait is unchanged). -/
theorem feasible_step_bounds {grid : Grid} {cur next : List Coordinate}
    (hw : grid.width < 2147483648) (hh : grid.height < 2147483648)
    (hcur : ∀ c ∈ cur, c.x < 2147483648 ∧ c.y < 2147483648)
    (hjm : next ∈ jointMoves (movesPerAgent grid cur)) :
    ∀ c ∈ next, c.x < 2147483648 ∧ c.y < 2147483648 := by
  intro c hc
  have hF := (jointMoves_mem _ next).mp hjm
  obtain ⟨ms, hms, hcm⟩ := forall₂_mem_left hF c hc
  rw [movesPerAgent, List.mem_map] at hms
  obtain ⟨p, hp, rfl⟩ := hms
  rw [List.mem_append, List.mem_map] at hcm
  rcases hcm with ⟨a, ha, rfl⟩ | hcm
  · have hpass := neighbors_grid_passable (show (a.1, a.2) ∈ _ from ha)
    have := is_passable_lt hpass
    omega
  · rw [List.mem_singleton] at hcm
    subst hcm
    exact hcur _ hp

theorem heuristic_self (c : Coordinate) : heuristic c c = 0 := by
  simp [heuristic]

/-- C6 counterexample: on a fully passable 2×2 grid, two agents each
one step from their goal reach a goal state in a single feasible joint
transition (total `g`-cost 1), yet the summed Manhattan heuristic of
the joint state is 2 — the joint heuristic exceeds the minimum total
`g`-cost, so it is not admissible for the joint search's cost
function, in which `g` increases by exactly 1 per joint transition. -/
theorem heuristic_admissible_cex :
    ReachesGoalIn ⟨[1, 1, 1, 1], 2, 2⟩ [⟨0, 1⟩, ⟨1, 1⟩] 1 [⟨0, 0⟩, ⟨1, 0⟩] ∧
    GlobalState.heuristic ⟨[⟨0, 0⟩, ⟨1, 0⟩], [], 0, 0, [⟨0, 1⟩, ⟨1, 1⟩]⟩ = 2 ∧
    ¬(GlobalState.heuristic ⟨[⟨0, 0⟩, ⟨1, 0⟩], [], 0, 0,
        [⟨0, 1⟩, ⟨1, 1⟩]⟩ ≤ 1) :=
  ⟨⟨[⟨0, 1⟩, ⟨1, 1⟩], ⟨by decide, by decide, by decide⟩,
    (by decide : atGoals ([⟨0, 1⟩, ⟨1, 1⟩] : List Coordinate)
      [⟨0, 1⟩, ⟨1, 1⟩] = true)⟩,
    by decide, by decide⟩

/-- C6 (amended): the heuristic is admissible per agent — if `k`
feasible joint transitions lead from `cur` to a goal state then each
single agent's Manhattan distance to its goal is at most `k` (the
regime hypotheses make the source's `as i32` casts exact). The summed
joint heuristic is bounded by `k` times the number of agents, not by
`k`. -/
theorem heuristic_per_agent_admissible (grid : Grid) (goals : List Coordinate)
    (hw : grid.width < 2147483648) (hh : grid.height < 2147483648)
    (hg : ∀ c ∈ goals, c.x < 2147483648 ∧ c.y < 2147483648) :
    ∀ (k : Nat) (cur : List Coordinate),
      cur.length = goals.length →
      (∀ c ∈ cur, c.x < 2147483648 ∧ c.y < 2147483648) →
      ReachesGoalIn grid goals k cur →
      ∀ i < cur.length,
        heuristic (cur.getD i ⟨0, 0⟩) (goals.getD i ⟨0, 0⟩) ≤ k
  | 0, cur, hlen, _, hreach, i, hi => by
      rw [ReachesGoalIn] at hreach
      have heq := atGoals_eq hreach hlen
      subst heq
      rw [heuristic_self]
  | k + 1, cur, hlen, hcur, hreach, i, hi => by
      rw [ReachesGoalIn] at hreach
      obtain ⟨next, hfs, hrest⟩ := hreach
      have hjm := hfs.1
      have hnlen : next.length = cur.length := by
        have := ((jointMoves_mem _ next).mp hjm).length_eq
        simpa [movesPerAgent] using this
      have hnextb := feasible_step_bounds hw hh hcur hjm
      have hi' : i < next.length := by omega
      have hIH := heuristic_per_agent_admissible grid goals hw hh hg k next
        (by omega) hnextb hrest i hi'
      have hmem := forall₂_getD ((jointMoves_mem _ next).mp hjm) hi'
        (⟨0, 0⟩ : Coordinate) ([] : List Coordinate)
      rw [movesPerAgent,
        getD_map_lt (fun p => (neighbors_grid p grid).map Prod.fst ++ [p]) hi
          (⟨0, 0⟩ : Coordinate) ([] : List Coordinate)] at hmem
      have hcb := hcur _ (Validation.getD_mem hi (⟨0, 0⟩ : Coordinate))
      have hgb := hg _ (@Validation.getD_mem Coordinate goals i (by omega)
        (⟨0, 0⟩ : Coordinate))
      rw [List.mem_append, List.mem_map] at hmem
      rcases hmem with ⟨a, ha, hfst⟩ | hmem
      · have hnb := hnextb _ (Validation.getD_mem hi' (⟨0, 0⟩ : Coordinate))
        have hdelta := neighbors_grid_delta (show (a.1, a.2) ∈ _ from ha)
          hcb.1 hcb.2 hw hh
        rw [hfst] at hdelta
        rw [heuristic, u32_as_i32_of_lt hcb.1, u32_as_i32_of_lt hcb.2,
          u32_as_i32_of_lt hgb.1, u32_as_i32_of_lt hgb.2]
        rw [heuristic, u32_as_i32_of_lt hnb.1, u32_as_i32_of_lt hnb.2,
          u32_as_i32_of_lt hgb.1, u32_as_i32_of_lt hgb.2] at hIH
        omega
      · rw [List.mem_singleton] at hmem
        rw [hmem] at hIH
        exact Nat.le_succ_of_le hIH

/-- C6 amended witness: the counterexample instance, per agent. -/
theorem heuristic_per_agent_admissible_witness :
    ReachesGoalIn ⟨[1, 1, 1, 1], 2, 2⟩ [⟨0, 1⟩, ⟨1, 1⟩] 1 [⟨0, 0⟩, ⟨1, 0⟩] ∧
    ∀ i < ([⟨0, 0⟩, ⟨1, 0⟩] : List Coordinate).length,
      heuristic (([⟨0, 0⟩, ⟨1, 0⟩] : List Coordinate).getD i ⟨0, 0⟩)
        (([⟨0, 1⟩, ⟨1, 1⟩] : List Coordinate).getD i ⟨0, 0⟩) ≤ 1 := by
  have hreach : ReachesGoalIn ⟨[1, 1, 1, 1], 2, 2⟩ [⟨0, 1⟩, ⟨1, 1⟩] 1
      [⟨0, 0⟩, ⟨1, 0⟩] :=
    ⟨[⟨0, 1⟩, ⟨1, 1⟩], ⟨by decide, by decide, by decide⟩,
      (by decide : atGoals ([⟨0, 1⟩, ⟨1, 1⟩] : List Coordinate)
        [⟨0, 1⟩, ⟨1, 1⟩] = true)⟩
  exact ⟨hreach, heuristic_per_agent_admissible ⟨[1, 1, 1, 1], 2, 2⟩
    [⟨0, 1⟩, ⟨1, 1⟩] (by decide) (by decide) (by decide) 1
    [⟨0, 0⟩, ⟨1, 0⟩] rfl (by decide) hreach⟩

/-- One agent's possible transition in an accepted joint move: wait,
or move to an accepted `neighbors_grid` target. -/
def stepOK (grid : Grid) (a b : Coordinate) : Prop :=
  b = a ∨ ∃ k, (b, k) ∈ neighbors_grid a grid

/-- Compatibility of two aligned agent paths: never the same cell at
the same index, and never a swap across consecutive indices. -/
def PathCompat (p q : List Coordinate) : Prop :=
  (∀ t c c', p.get? t = some c → q.get? t = some c' → c ≠ c') ∧
  (∀ t a a' b b', p.get? t = some a → p.get? (t + 1) = some a' →
    q.get? t = some b → q.get? (t + 1) = some b' → ¬(a = b' ∧ b = a'))

/-- The safety invariant of the joint-state search: every recorded
cell is passable, consecutive cells of a path are accepted single
transitions, and the paths are pairwise compatible. -/
def InvB (grid : Grid) (s : GlobalState) : Prop :=
  (∀ p ∈ s.paths, ∀ c ∈ p, grid.is_passable c.x c.y = true) ∧
  (∀ p ∈ s.paths, p.Chain' (stepOK grid)) ∧
  s.paths.Pairwise PathCompat

theorem get?_snoc {α : Type} (l : List α) (a : α) (t : Nat) :
    (l ++ [a]).get? t =
      if t < l.length then l.get? t
      else if t = l.length then some a else none := by
  by_cases h1 : t < l.length
  · rw [if_pos h1, List.get?_append h1]
  · rw [if_neg h1]
    by_cases h2 : t = l.length
    · subst h2
      rw [if_pos rfl]
      exact List.get?_concat_length l a
    · rw [if_neg h2, List.get?_eq_none.mpr]
      simp only [List.length_append, List.length_cons, List.length_nil]
      omega

theorem pathCompat_snoc {p q : List Coordinate} {c d n m : Coordinate} {T : Nat}
    (hpq : PathCompat p q) (hp : p.length = T + 1) (hq : q.length = T + 1)
    (hcl : p.getLast? = some c) (hdl : q.getLast? = some d)
    (hnm : n ≠ m) (hns : ¬(c = m ∧ d = n)) :
    PathCompat (p ++ [n]) (q ++ [m]) := by
  have hcT : p.get? T = some c := by
    rw [List.getLast?_eq_get?, hp] at hcl
    simpa using hcl
  have hdT : q.get? T = some d := by
    rw [List.getLast?_eq_get?, hq] at hdl
    simpa using hdl
  constructor
  · intro t x y hx hy
    rw [get?_snoc, hp] at hx
    rw [get?_snoc, hq] at hy
    by_cases h1 : t < T + 1
    · rw [if_pos h1] at hx hy
      exact hpq.1 t x y hx hy
    · rw [if_neg h1] at hx hy
      by_cases h2 : t = T + 1
      · rw [if_pos h2] at hx hy
        have hxn : n = x := Option.some.inj hx
        have hym : m = y := Option.some.inj hy
        rw [← hxn, ← hym]
        exact hnm
      · rw [if_neg h2] at hx
        cases hx
  · intro t a a' b b' h1 h2 h3 h4
    rw [get?_snoc, hp] at h1 h2
    rw [get?_snoc, hq] at h3 h4
    by_cases ht1 : t + 1 < T + 1
    · rw [if_pos (show t < T + 1 by omega)] at h1 h3
      rw [if_pos ht1] at h2 h4
      exact hpq.2 t a a' b b' h1 h2 h3 h4
    · by_cases ht2 : t + 1 = T + 1
      · have htT : t = T := by omega
        subst htT
        rw [if_pos (show t < t + 1 by omega)] at h1 h3
        rw [if_neg (by omega), if_pos ht2] at h2 h4
        have hca : c = a := Option.some.inj (hcT.symm.trans h1)
        have hdb : d = b := Option.some.inj (hdT.symm.trans h3)
        have hna : n = a' := Option.some.inj h2
        have hmb : m = b' := Option.some.inj h4
        rintro ⟨x1, x2⟩
        exact hns ⟨hca.trans (x1.trans hmb.symm), hdb.trans (x2.trans hna.symm)⟩
      · rw [if_neg (by omega), if_neg ht2] at h2
        cases h2

theorem forall₂_zip_rel {α β : Type} {R : α → β → Prop} :
    ∀ {l1 : List α} {l2 : List β}, List.Forall₂ R l1 l2 →
      ∀ x ∈ l1.zip l2, R x.1 x.2 := by
  intro l1 l2 h
  induction h with
  | nil =>
      intro x hx
      cases hx
  | cons hR hF ih =>
      intro x hx
      rw [List.zip_cons_cons, List.mem_cons] at hx
      rcases hx with rfl | hx
      · exact hR
      · exact ih x hx

theorem forall₂_mem_right {α β : Type} {R : α → β → Prop} :
    ∀ {l1 : List α} {l2 : List β}, List.Forall₂ R l1 l2 →
      ∀ b ∈ l2, ∃ a ∈ l1, R a b := by
  intro l1 l2 h
  induction h with
  | nil =>
      intro b hb
      cases hb
  | cons hR _ ih =>
      intro b hb
      rw [List.mem_cons] at hb
      rcases hb with rfl | hb
      · exact ⟨_, List.mem_cons_self _ _, hR⟩
      · obtain ⟨a, ha, hRa⟩ := ih b hb
        exact ⟨a, List.mem_cons_of_mem _ ha, hRa⟩

theorem forall₂_comp_right {α β γ : Type} {R : α → γ → Prop} {S : β → γ → Prop} :
    ∀ {l1 : List α} {l3 : List γ}, List.Forall₂ R l1 l3 →
      ∀ {l2 : List β}, List.Forall₂ S l2 l3 →
      List.Forall₂ (fun a b => ∃ c, R a c ∧ S b c) l1 l2 := by
  intro l1 l3 h1
  induction h1 with
  | nil =>
      intro l2 h2
      rw [List.forall₂_nil_right_iff] at h2
      subst h2
      exact List.Forall₂.nil
  | @cons a c l1' l3' hR hF ih =>
      intro l2 h2
      rcases l2 with _ | ⟨b, l2'⟩
      · cases h2
      · cases h2 with
        | cons hS hF2 => exact List.Forall₂.cons ⟨c, hR, hS⟩ (ih hF2)

theorem zip_zip_map :
    ∀ (ps : List (List Coordinate)) (cur np : List Coordinate),
      ps.length = cur.length →
      ((ps.zip (cur.zip np)).map fun pc => pc.1 ++ [pc.2.2]) =
        ((ps.zip np).map fun pc => pc.1 ++ [pc.2])
  | [], _, _, _ => rfl
  | _ :: _, [], _, h => by simp at h
  | p :: ps', c :: cur', [], _ => by simp
  | p :: ps', c :: cur', n :: np', h => by
      simp only [List.zip_cons_cons, List.map_cons, List.cons.injEq]
      exact ⟨trivial, zip_zip_map ps' cur' np' (by simpa using h)⟩

theorem forall₂_zip_build {T : Nat} :
    ∀ {ps : List (List Coordinate)} {cur : List Coordinate},
      List.Forall₂ (fun p c => p.getLast? = some c) ps cur →
      ∀ (np : List Coordinate), ps.length = np.length →
      (∀ p ∈ ps, p.length = T + 1) →
      List.Forall₂ (fun p x => p.getLast? = some x.1 ∧ p.length = T + 1)
        ps (cur.zip np) := by
  intro ps cur h
  induction h with
  | nil =>
      intro np _ _
      exact List.Forall₂.nil
  | @cons p c ps' cur' hR hF ih =>
      intro np hlen hlens
      rcases np with _ | ⟨n, np'⟩
      · simp at hlen
      · rw [List.zip_cons_cons]
        exact List.Forall₂.cons ⟨hR, hlens p (List.mem_cons_self _ _)⟩
          (ih np' (by simpa using hlen)
            fun q hq => hlens q (List.mem_cons_of_mem _ hq))

theorem pairwise_snoc_compat {T : Nat} :
    ∀ {ps : List (List Coordinate)} {cn : List (Coordinate × Coordinate)},
      List.Forall₂ (fun p x => p.getLast? = some x.1 ∧ p.length = T + 1) ps cn →
      ps.Pairwise PathCompat →
      cn.Pairwise (fun x y => x.2 ≠ y.2 ∧ ¬(x.1 = y.2 ∧ y.1 = x.2)) →
      ((ps.zip cn).map fun pc => pc.1 ++ [pc.2.2]).Pairwise PathCompat := by
  intro ps cn h
  induction h with
  | nil =>
      intro _ _
      simp
  | @cons p x ps' cn' hR hF ih =>
      intro hps hcn
      rw [List.pairwise_cons] at hps hcn
      rw [List.zip_cons_cons, List.map_cons, List.pairwise_cons]
      refine ⟨?_, ih hps.2 hcn.2⟩
      intro q' hq'
      rw [List.mem_map] at hq'
      obtain ⟨qy, hqy, rfl⟩ := hq'
      have hrel := forall₂_zip_rel hF qy hqy
      have hq := List.mem_zip hqy
      have hcompat := hps.1 qy.1 hq.1
      have hpair := hcn.1 qy.2 hq.2
      exact pathCompat_snoc hcompat hR.2 hrel.2 hR.1 hrel.1 hpair.1 hpair.2

theorem pairwise_snd_of_zip {cur np : List Coordinate}
    (hlen : np.length ≤ cur.length) (h : np.Pairwise (· ≠ ·)) :
    (cur.zip np).Pairwise fun x y => x.2 ≠ y.2 := by
  have hmap : (cur.zip np).map Prod.snd = np := List.map_snd_zip cur np hlen
  rw [← hmap] at h
  exact (List.pairwise_map).mp h

theorem invB_mkNext {grid : Grid} {starts goals : List Coordinate}
    {s : GlobalState} {np : List Coordinate}
    (hA : InvA starts goals s) (hB : InvB grid s)
    (hnp : np ∈ jointMoves (movesPerAgent grid s.positions))
    (hd : allDistinct np = true)
    (he : hasEdgeConflict s.positions np = false) :
    InvB grid (mkNext s np) := by
  obtain ⟨hg, hposlen, hpathlen, hlens, hheads, hlasts⟩ := hA
  obtain ⟨hpass, hchain, hpw⟩ := hB
  have hF := (jointMoves_mem _ np).mp hnp
  have hnplen : np.length = s.positions.length := by
    have := hF.length_eq
    simpa [movesPerAgent] using this
  have hpos_pass : ∀ pos ∈ s.positions, grid.is_passable pos.x pos.y = true := by
    intro pos hpos
    obtain ⟨p, hp, hrel⟩ := forall₂_mem_right hlasts pos hpos
    exact hpass p hp pos (List.mem_of_mem_getLast? hrel)
  have hnp_pass : ∀ c ∈ np, grid.is_passable c.x c.y = true := by
    intro c hc
    obtain ⟨ms, hms, hcm⟩ := forall₂_mem_left hF c hc
    rw [movesPerAgent, List.mem_map] at hms
    obtain ⟨pos, hpos, rfl⟩ := hms
    rw [List.mem_append, List.mem_map] at hcm
    rcases hcm with ⟨a, ha, rfl⟩ | hcm
    · exact neighbors_grid_passable (show (a.1, a.2) ∈ _ from ha)
    · rw [List.mem_singleton] at hcm
      subst hcm
      exact hpos_pass _ hpos
  have hFm : List.Forall₂
      (fun c pos => c ∈ (neighbors_grid pos grid).map Prod.fst ++ [pos])
      np s.positions := by
    rw [movesPerAgent] at hF
    exact (List.forall₂_map_right_iff).mp hF
  have hPN : List.Forall₂ (fun p c => ∃ pos, p.getLast? = some pos ∧
      c ∈ (neighbors_grid pos grid).map Prod.fst ++ [pos]) s.paths np :=
    forall₂_comp_right hlasts hFm
  refine ⟨?_, ?_, ?_⟩
  · intro p' hp'
    simp only [mkNext, List.mem_map] at hp'
    obtain ⟨pc, hpc, rfl⟩ := hp'
    have hzip := List.mem_zip hpc
    intro c hc
    rw [List.mem_append, List.mem_singleton] at hc
    rcases hc with hc | rfl
    · exact hpass pc.1 hzip.1 c hc
    · exact hnp_pass pc.2 hzip.2
  · intro p' hp'
    simp only [mkNext, List.mem_map] at hp'
    obtain ⟨pc, hpc, rfl⟩ := hp'
    have hzip := List.mem_zip hpc
    obtain ⟨pos, hlast, hmv⟩ := forall₂_zip_rel hPN pc hpc
    rw [List.chain'_append]
    refine ⟨hchain pc.1 hzip.1, List.chain'_singleton _, ?_⟩
    intro x hx y hy
    rw [hlast, Option.mem_def] at hx
    have hxpos : x = pos := (Option.some.inj hx).symm
    simp only [List.head?_cons, Option.mem_def, Option.some.injEq] at hy
    subst hxpos
    rw [← hy]
    rw [List.mem_append, List.mem_map] at hmv
    rcases hmv with ⟨a, ha, hfst⟩ | hmv
    · refine Or.inr ⟨a.2, ?_⟩
      rw [← hfst]
      exact show (a.1, a.2) ∈ _ from ha
    · rw [List.mem_singleton] at hmv
      exact Or.inl hmv
  · have hvert := pairwise_snd_of_zip (le_of_eq hnplen)
      ((allDistinct_iff np).mp hd)
    have hedge := (hasEdgeConflict_false_iff s.positions np).mp he
    have hcn := hvert.and hedge
    have hFzip := forall₂_zip_build hlasts np (by omega) hlens
    have hres := pairwise_snoc_compat hFzip hpw hcn
    rw [zip_zip_map s.paths s.positions np (by omega)] at hres
    simpa only [mkNext] using hres

theorem invB_init (grid : Grid) (agents : List ((Nat × Nat) × (Nat × Nat)))
    (hpass : ∀ a ∈ agents, grid.is_passable a.1.1 a.1.2 = true)
    (hnodup : (agents.map fun a => Coordinate.mk a.1.1 a.1.2).Nodup) :
    InvB grid ⟨agents.map fun a => Coordinate.mk a.1.1 a.1.2,
      (agents.map fun a => Coordinate.mk a.1.1 a.1.2).map fun p => [p],
      0, 0, agents.map fun a => Coordinate.mk a.2.1 a.2.2⟩ := by
  refine ⟨?_, ?_, ?_⟩
  · intro p hp c hc
    simp only [List.map_map, List.mem_map, Function.comp] at hp
    obtain ⟨a, ha, rfl⟩ := hp
    rw [List.mem_singleton] at hc
    subst hc
    exact hpass a ha
  · intro p hp
    simp only [List.map_map, List.mem_map, Function.comp] at hp
    obtain ⟨a, _, rfl⟩ := hp
    exact List.chain'_singleton _
  · rw [List.pairwise_map]
    refine List.Pairwise.imp ?_ hnodup
    intro a b hab
    constructor
    · intro t c c' hc hc'
      rcases t with _ | t
      · rw [List.get?_cons_zero] at hc hc'
        have h1 : a = c := Option.some.inj hc
        have h2 : b = c' := Option.some.inj hc'
        rw [← h1, ← h2]
        exact hab
      · rw [List.get?_cons_succ, List.get?_nil] at hc
        cases hc
    · intro t x x' y y' h1 h2 h3 h4
      rcases t with _ | t <;>
        rw [List.get?_cons_succ, List.get?_nil] at h2 <;> cases h2

/-- The conversion the backend performs between the solver's `u32`
coordinates and the validator's `i64` coordinates. -/
def coordV (c : Coordinate) : Validation.Coordinate :=
  ⟨(c.x : Int), (c.y : Int)⟩

/-- The validator's view of a solver grid: same dimensions, same
row-major tile data (1 = passable, 0 = blocked). -/
def gridV (g : Grid) : Validation.GridMap :=
  ⟨g.width, g.height, g.data⟩

def pathV (p : Path) : Validation.Path :=
  ⟨p.steps.map coordV⟩

def solutionV (plan : List Path) : Validation.Solution :=
  ⟨plan.map pathV⟩

/-- The agents' start coordinates, as the validator sees them. -/
def startsV (agents : List ((Nat × Nat) × (Nat × Nat))) :
    List Validation.Coordinate :=
  (agents.map fun a => Coordinate.mk a.1.1 a.1.2).map coordV

/-- The agents' goal coordinates, as the validator sees them. -/
def goalsV (agents : List ((Nat × Nat) × (Nat × Nat))) :
    List Validation.Coordinate :=
  (agents.map fun a => Coordinate.mk a.2.1 a.2.2).map coordV

theorem coordV_inj {c c' : Coordinate} (h : coordV c = coordV c') : c = c' := by
  cases c
  cases c'
  simp only [coordV, Validation.Coordinate.mk.injEq] at h
  obtain ⟨hx, hy⟩ := h
  simp only [Coordinate.mk.injEq]
  omega

theorem posAt_map {steps : List Coordinate} {t : Nat} (ht : t < steps.length) :
    Validation.posAt ⟨steps.map coordV⟩ t = (steps.get? t).map coordV := by
  unfold Validation.posAt
  rw [if_pos (by simpa using ht)]
  exact List.get?_map coordV steps t

theorem cellOK_of_passable {grid : Grid} {c : Coordinate}
    (hw : grid.width < 2147483648) (hh : grid.height < 2147483648)
    (hp : grid.is_passable c.x c.y = true) :
    Validation.cellOK (gridV grid) (coordV c) := by
  have hlt := is_passable_lt hp
  unfold Grid.is_passable at hp
  rw [if_neg (by
    simp only [Bool.or_eq_true, decide_eq_true_eq, not_or]
    omega)] at hp
  rw [beq_iff_eq] at hp
  constructor
  · simp only [gridV, coordV, u32_as_i32_of_lt hw, u32_as_i32_of_lt hh]
    omega
  · simp only [gridV, coordV, Int.toNat_natCast]
    rw [hp]
    simp

theorem cardRel_of_stepOK {grid : Grid} {a b : Coordinate}
    (hw : grid.width < 2147483648) (hh : grid.height < 2147483648)
    (ha : a.x < 2147483648 ∧ a.y < 2147483648)
    (h : stepOK grid a b) :
    Validation.cardRel (coordV a) (coordV b) := by
  rcases h with rfl | ⟨k, hk⟩
  · simp [Validation.cardRel, coordV]
  · have hdelta := neighbors_grid_delta hk ha.1 ha.2 hw hh
    simp only [Validation.cardRel, coordV]
    omega

theorem chain'_imp_of_mem {α : Type} {R S : α → α → Prop} :
    ∀ {l : List α}, (∀ a ∈ l, ∀ b ∈ l, R a b → S a b) →
      l.Chain' R → l.Chain' S
  | [], _, _ => List.chain'_nil
  | [a], _, _ => List.chain'_singleton a
  | a :: b :: l, H, h => by
      rw [List.chain'_cons] at h ⊢
      refine ⟨H a (List.mem_cons_self _ _) b
        (List.mem_cons_of_mem _ (List.mem_cons_self _ _)) h.1, ?_⟩
      exact chain'_imp_of_mem
        (fun x hx y hy => H x (List.mem_cons_of_mem _ hx) y
          (List.mem_cons_of_mem _ hy)) h.2

theorem maxLen_uniform :
    ∀ (paths : List Validation.Path) (v : Nat), paths ≠ [] →
      (∀ p ∈ paths, p.steps.length = v) → Validation.maxLen paths = v
  | [], _, hne, _ => absurd rfl hne
  | [p], v, _, h => by
      simp [Validation.maxLen, h p (List.mem_singleton.mpr rfl)]
  | p :: q :: rest, v, _, h => by
      have ih := maxLen_uniform (q :: rest) v (by simp)
        fun r hr => h r (List.mem_cons_of_mem _ hr)
      show max p.steps.length (Validation.maxLen (q :: rest)) = v
      rw [ih, h p (List.mem_cons_self _ _)]
      exact Nat.max_self v

/-- C2 counterexample: on a 1×1 grid whose only cell is blocked, with
one agent whose start equals its goal, the solver returns a plan (the
initial state already satisfies the goal test, which never looks at
the map), but the validator rejects that plan with a `BlockedCell`
error — so a returned plan need not validate when a start cell is
blocked. -/
theorem solver_plan_validates_cex :
    solve_mapf_centralized_grid 1 ⟨[0], 1, 1⟩ [((0, 0), (0, 0))] =
      some [⟨[⟨0, 0⟩]⟩] ∧
    Validation.validate_solution (solutionV [⟨[⟨0, 0⟩]⟩]) (gridV ⟨[0], 1, 1⟩)
      (startsV [((0, 0), (0, 0))]) (goalsV [((0, 0), (0, 0))]) =
      some ⟨false, [⟨Validation.ValidationErrorType.BlockedCell, 0, some 0⟩]⟩ := by
  constructor
  · decide
  · decide

/-- C2 (amended): when every agent's start cell is passable and no two
agents share a start (and the grid dimensions are inside the regime
where the source's `u32`/`i32` casts are exact), every plan the
centralized solver returns passes the validator with `valid = true`. -/
theorem solver_plan_validates (fuel : Nat) (grid : Grid)
    (agents : List ((Nat × Nat) × (Nat × Nat))) (plan : List Path)
    (hw : grid.width < 2147483648) (hh : grid.height < 2147483648)
    (hpassA : ∀ a ∈ agents, grid.is_passable a.1.1 a.1.2 = true)
    (hnodup : (agents.map fun a => Coordinate.mk a.1.1 a.1.2).Nodup)
    (hsolve : solve_mapf_centralized_grid fuel grid agents = some plan) :
    ∃ res, Validation.validate_solution (solutionV plan) (gridV grid)
        (startsV agents) (goalsV agents) = some res ∧ res.valid = true := by
  unfold solve_mapf_centralized_grid at hsolve
  obtain ⟨s, ⟨hA, hB⟩, hgoal, rfl⟩ := searchLoop_inv grid
    (fun st => InvA (agents.map fun a => Coordinate.mk a.1.1 a.1.2)
      (agents.map fun a => Coordinate.mk a.2.1 a.2.2) st ∧ InvB grid st)
    (by
      intro st np hP hnp hd he
      exact ⟨invA_mkNext hP.1 hnp, invB_mkNext hP.1 hP.2 hnp hd he⟩)
    fuel _ _ _
    (by
      intro st hst
      simp only [List.mem_singleton] at hst
      subst hst
      exact ⟨invA_init grid agents, invB_init grid agents hpassA hnodup⟩)
    hsolve
  obtain ⟨hg, hposlen, hpathlen, hlens, hheads, hlasts⟩ := hA
  obtain ⟨hpass, hchain, hpw⟩ := hB
  simp only [List.length_map] at hposlen hpathlen
  have hgoal' : atGoals s.positions
      (agents.map fun a => Coordinate.mk a.2.1 a.2.2) = true := by
    rw [← hg]
    exact hgoal
  have hgoals := atGoals_eq hgoal' (by simp only [List.length_map]; omega)
  have hvp : (solutionV (s.paths.map fun steps => ⟨steps⟩)).paths =
      s.paths.map fun steps => (⟨steps.map coordV⟩ : Validation.Path) := by
    simp only [solutionV, List.map_map]
    rfl
  have hvlens : ∀ p ∈ s.paths.map
      (fun steps => (⟨steps.map coordV⟩ : Validation.Path)),
      p.steps.length = s.timestep + 1 := by
    intro p hp
    rw [List.mem_map] at hp
    obtain ⟨steps, hsteps, rfl⟩ := hp
    simp only [List.length_map]
    exact hlens steps hsteps
  have hper : Validation.perPathScan (gridV grid) 0
      (s.paths.map fun steps => (⟨steps.map coordV⟩ : Validation.Path)) = [] := by
    rw [Validation.perPathScan_eq_nil]
    intro p hp
    rw [List.mem_map] at hp
    obtain ⟨steps, hsteps, rfl⟩ := hp
    have hplen := hlens steps hsteps
    refine ⟨⟨?_, ?_⟩, ?_⟩
    · intro hnil
      have hlen0 := congrArg List.length hnil
      simp only [List.length_map, List.length_nil] at hlen0
      omega
    · show (steps.map coordV).Chain' Validation.cardRel
      rw [List.chain'_map]
      refine chain'_imp_of_mem ?_ (hchain steps hsteps)
      intro a ha b _ hab
      have hb1 := is_passable_lt (hpass steps hsteps a ha)
      exact cardRel_of_stepOK hw hh ⟨by omega, by omega⟩ hab
    · intro c hc
      rw [show (⟨steps.map coordV⟩ : Validation.Path).steps =
        steps.map coordV from rfl, List.mem_map] at hc
      obtain ⟨c0, hc0, rfl⟩ := hc
      exact cellOK_of_passable hw hh (hpass steps hsteps c0 hc0)
  obtain ⟨es, hsg, hsgiff⟩ := @Validation.validate_starts_and_goals_char
    (s.paths.map fun steps => (⟨steps.map coordV⟩ : Validation.Path))
    (startsV agents) (goalsV agents)
    (by simp only [startsV, List.length_map]; omega)
    (by simp only [goalsV, List.length_map]; omega)
  have hes : es = [] := by
    rw [hsgiff]
    intro k p hkp hne
    have hklen := Validation.get?_lt_length hkp
    simp only [List.length_map] at hklen
    rw [List.get?_map, Validation.get?_eq_some_getD hklen []] at hkp
    have hp := Option.some.inj hkp
    subst hp
    have hhead := forall₂_getD hheads hklen [] (⟨0, 0⟩ : Coordinate)
    have hlast := forall₂_getD hlasts hklen [] (⟨0, 0⟩ : Coordinate)
    rw [hgoals] at hlast
    constructor
    · show ((s.paths.getD k []).map coordV).head? = (startsV agents).get? k
      rw [List.head?_map, hhead]
      simp only [startsV]
      rw [List.get?_map, @Validation.get?_eq_some_getD _
        (agents.map fun a => Coordinate.mk a.1.1 a.1.2) k
        (by simp only [List.length_map]; omega) (⟨0, 0⟩ : Coordinate)]
    · show ((s.paths.getD k []).map coordV).getLast? = (goalsV agents).get? k
      rw [List.getLast?_map, hlast]
      simp only [goalsV]
      rw [List.get?_map, @Validation.get?_eq_some_getD _
        (agents.map fun a => Coordinate.mk a.2.1 a.2.2) k
        (by simp only [List.length_map]; omega) (⟨0, 0⟩ : Coordinate)]
  subst hes
  by_cases hgt : (s.paths.map
      fun steps => (⟨steps.map coordV⟩ : Validation.Path)).length > 1
  · have hne : (s.paths.map
        fun steps => (⟨steps.map coordV⟩ : Validation.Path)) ≠ [] := by
      intro h0
      rw [h0] at hgt
      simp at hgt
    have hmax := maxLen_uniform _ _ hne hvlens
    have hvert : Validation.validate_no_vertex_collisions
        (s.paths.map fun steps => (⟨steps.map coordV⟩ : Validation.Path)) = [] := by
      rw [Validation.validate_no_vertex_collisions_eq_nil_iff]
      intro t ht a ha pos hpos hex
      obtain ⟨b, hb, hposb⟩ := hex
      rw [hmax] at ht
      simp only [List.length_map] at ha
      have hb' : b < s.paths.length := by omega
      rw [getD_map_lt (fun steps => (⟨steps.map coordV⟩ : Validation.Path))
        ha [] ⟨[]⟩] at hpos
      rw [getD_map_lt (fun steps => (⟨steps.map coordV⟩ : Validation.Path))
        hb' [] ⟨[]⟩] at hposb
      have hta : t < (s.paths.getD a []).length := by
        rw [hlens _ (Validation.getD_mem ha [])]
        omega
      have htb : t < (s.paths.getD b []).length := by
        rw [hlens _ (Validation.getD_mem hb' [])]
        omega
      rw [posAt_map hta, Validation.get?_eq_some_getD hta (⟨0, 0⟩ : Coordinate)]
        at hpos
      rw [posAt_map htb, Validation.get?_eq_some_getD htb (⟨0, 0⟩ : Coordinate)]
        at hposb
      simp only [Option.map_some'] at hpos hposb
      have hca := Option.some.inj hpos
      have hcb := Option.some.inj hposb
      have hcompat := (List.pairwise_iff_get.mp hpw) ⟨b, hb'⟩ ⟨a, ha⟩ hb
      have hcc : (s.paths.getD b []).getD t (⟨0, 0⟩ : Coordinate) =
          (s.paths.getD a []).getD t (⟨0, 0⟩ : Coordinate) :=
        coordV_inj (hcb.trans hca.symm)
      refine hcompat.1 t _ _ ?_ ?_ hcc
      · rw [← Validation.getD_eq_get hb' []]
        exact Validation.get?_eq_some_getD htb _
      · rw [← Validation.getD_eq_get ha []]
        exact Validation.get?_eq_some_getD hta _
    have hedge : Validation.validate_no_edge_collisions
        (s.paths.map fun steps => (⟨steps.map coordV⟩ : Validation.Path)) = [] := by
      rw [Validation.validate_no_edge_collisions_eq_nil_iff]
      intro t ht
      rw [hmax] at ht
      rw [List.pairwise_map]
      refine List.Pairwise.imp_of_mem ?_ hpw
      intro p q hpmem hqmem hcompat
      have hplen := hlens p hpmem
      have hqlen := hlens q hqmem
      have e1 : Validation.posAt ⟨p.map coordV⟩ t =
          some (coordV (p.getD t ⟨0, 0⟩)) := by
        rw [posAt_map (by omega),
          Validation.get?_eq_some_getD (by omega) (⟨0, 0⟩ : Coordinate)]
        rfl
      have e2 : Validation.posAt ⟨p.map coordV⟩ (t + 1) =
          some (coordV (p.getD (t + 1) ⟨0, 0⟩)) := by
        rw [posAt_map (by omega),
          Validation.get?_eq_some_getD (by omega) (⟨0, 0⟩ : Coordinate)]
        rfl
      have e3 : Validation.posAt ⟨q.map coordV⟩ t =
          some (coordV (q.getD t ⟨0, 0⟩)) := by
        rw [posAt_map (by omega),
          Validation.get?_eq_some_getD (by omega) (⟨0, 0⟩ : Coordinate)]
        rfl
      have e4 : Validation.posAt ⟨q.map coordV⟩ (t + 1) =
          some (coordV (q.getD (t + 1) ⟨0, 0⟩)) := by
        rw [posAt_map (by omega),
          Validation.get?_eq_some_getD (by omega) (⟨0, 0⟩ : Coordinate)]
        rfl
      rw [Bool.eq_false_iff]
      intro hcon
      simp only [Validation.swapAt, e1, e2, e3, e4, coordV, Bool.and_eq_true,
        beq_iff_eq] at hcon
      obtain ⟨⟨⟨hx1, hy1⟩, hx2⟩, hy2⟩ := hcon
      refine hcompat.2 t (p.getD t ⟨0, 0⟩) (p.getD (t + 1) ⟨0, 0⟩)
        (q.getD t ⟨0, 0⟩) (q.getD (t + 1) ⟨0, 0⟩)
        (Validation.get?_eq_some_getD (by omega) _)
        (Validation.get?_eq_some_getD (by omega) _)
        (Validation.get?_eq_some_getD (by omega) _)
        (Validation.get?_eq_some_getD (by omega) _) ⟨?_, ?_⟩
      · exact coordV_inj (Validation.coordinate_eq_of_xy hx1 hy1)
      · exact coordV_inj (Validation.coordinate_eq_of_xy hx2 hy2)
    refine ⟨⟨true, []⟩, ?_, rfl⟩
    simp only [Validation.validate_solution, hvp, hsg, hper, if_pos hgt,
      hvert, hedge, List.append_nil, List.nil_append]
    rfl
  · refine ⟨⟨true, []⟩, ?_, rfl⟩
    simp only [Validation.validate_solution, hvp, hsg, hper, if_neg hgt,
      List.append_nil, List.nil_append]
    rfl

/-- C2 amended witness: one agent parked on a passable 1×1 grid. -/
theorem solver_plan_validates_witness :
    ∃ res, Validation.validate_solution (solutionV [⟨[⟨0, 0⟩]⟩])
      (gridV ⟨[1], 1, 1⟩) (startsV [((0, 0), (0, 0))])
      (goalsV [((0, 0), (0, 0))]) = some res ∧ res.valid = true :=
  solver_plan_validates 1 ⟨[1], 1, 1⟩ [((0, 0), (0, 0))] [⟨[⟨0, 0⟩]⟩]
    (by decide) (by decide) (by decide) (by decide) (by decide)

end Astar

end Mapf
